import Mathlib

/-!
Verification of the DFS-based planarity tester in tarjan.py.

The Python code is shallowly embedded: the mutable object state of
PlanarityTester becomes an explicit record threaded through each routine,
Python list indexing (which supports negative wrap-around and raises
IndexError when out of range) becomes pyGet / pySet returning Option,
and a routine that can raise returns Option.  Recursion and while loops
are given explicit fuel; the fuel values chosen are provably sufficient
wherever the Python code terminates (see the lemmas below), and running
out of fuel is mapped to the same abnormal outcome (none) as a Python
exception.
-/

/-- Edge record of tarjan.py: endpoints v1, v2 and a sign tag,
1 for a tree edge and -1 for a back edge. -/
structure Edge where
  v1 : Int
  v2 : Int
  sign : Int := 1
deriving Repr, DecidableEq

/-- The mutable state of a PlanarityTester object.  graph is the
defaultdict(list) adjacency map, modelled as an insertion-ordered
association list (Python dicts preserve insertion order); absent keys
read as [].  The unused nesting_depth dictionary of __init__ is never
read or written by any method and is omitted. -/
structure PlanarityTester where
  V : Nat
  graph : List (Int × List Int)
  num : List Int
  lowpt : List Int
  lowpt2 : List Int
  parent : List Int
  counter : Int
  edges : List Edge
  sorted_edges : List Edge
deriving Repr

/-- defaultdict(list) read g[k]: the stored list, or [] for an absent key. -/
def dictGet : List (Int × List Int) → Int → List Int
  | [], _ => []
  | (k0, l) :: rest, k => if k0 = k then l else dictGet rest k

/-- defaultdict(list) g[k].append(x): append to the existing entry, or
create the entry [x] for an absent key. -/
def dictAppend : List (Int × List Int) → Int → Int → List (Int × List Int)
  | [], k, x => [(k, [x])]
  | (k0, l) :: rest, k, x =>
    if k0 = k then (k0, l ++ [x]) :: rest else (k0, l) :: dictAppend rest k x

/-- Python list read xs[i]: a negative index wraps by the length once;
an index that is still out of range raises IndexError (none). -/
def pyGet {α : Type} (xs : List α) (i : Int) : Option α :=
  let j := if i < 0 then i + xs.length else i
  if 0 ≤ j then xs.get? j.toNat else none

/-- Python list write xs[i] = a, with the same index semantics as pyGet. -/
def pySet {α : Type} (xs : List α) (i : Int) (a : α) : Option (List α) :=
  let j := if i < 0 then i + xs.length else i
  if 0 ≤ j ∧ j < xs.length then some (xs.set j.toNat a) else none

/-- PlanarityTester.__init__(vertices). -/
def mkTester (vertices : Nat) : PlanarityTester where
  V := vertices
  graph := []
  num := List.replicate vertices (-1)
  lowpt := List.replicate vertices (-1)
  lowpt2 := List.replicate vertices (-1)
  parent := List.replicate vertices (-1)
  counter := 0
  edges := []
  sorted_edges := []

/-- PlanarityTester.add_edge(u, v): appends v to graph[u], then u to
graph[v], with no validation of any kind. -/
def add_edge (st : PlanarityTester) (u v : Int) : PlanarityTester :=
  { st with graph := dictAppend (dictAppend st.graph u v) v u }

/-- The for-w-in-graph[v] loop body of _compute_numbers.  recurse is the
recursive call to _compute_numbers (at one less fuel). -/
def visit_neighbors (recurse : PlanarityTester → Int → Option (PlanarityTester × Bool))
    (v : Int) : PlanarityTester → List Int → Option (PlanarityTester × Bool)
  | st, [] => some (st, true)
  | st, w :: ws => do
    let numw ← pyGet st.num w
    if numw = -1 then do
      let par ← pySet st.parent w v
      let p ← recurse { st with parent := par, edges := st.edges ++ [⟨v, w, 1⟩] } w
      cond p.2 (visit_neighbors recurse v p.1 ws) (some (p.1, false))
    else do
      let numv ← pyGet st.num v
      if numw < numv then do
        let pv ← pyGet st.parent v
        if w ≠ pv then
          visit_neighbors recurse v { st with edges := st.edges ++ [⟨v, w, -1⟩] } ws
        else
          visit_neighbors recurse v st ws
      else
        visit_neighbors recurse v st ws

/-- PlanarityTester._compute_numbers(v).  The fuel bounds the depth of
the Python call stack; each nested call visits a previously unvisited
vertex, so depth never exceeds V + 1, the fuel used by is_planar. -/
def compute_numbers (fuel : Nat) : PlanarityTester → Int → Option (PlanarityTester × Bool) :=
  Nat.rec (motive := fun _ => PlanarityTester → Int → Option (PlanarityTester × Bool))
    (fun _ _ => none)
    (fun _ recurse st v => do
      let num1 ← pySet st.num v (st.counter + 1)
      let st1 := { st with counter := st.counter + 1, num := num1 }
      visit_neighbors recurse v st1 (dictGet st1.graph v))
    fuel

/-- Unfolding equation: out of fuel. -/
theorem compute_numbers_zero (st : PlanarityTester) (v : Int) :
    compute_numbers 0 st v = none := rfl

/-- Unfolding equation: one call of _compute_numbers. -/
theorem compute_numbers_succ (fuel : Nat) (st : PlanarityTester) (v : Int) :
    compute_numbers (fuel + 1) st v = (do
      let num1 ← pySet st.num v (st.counter + 1)
      let st1 := { st with counter := st.counter + 1, num := num1 }
      visit_neighbors (compute_numbers fuel) v st1 (dictGet st1.graph v)) := rfl

/-- The for-w-in-graph[v] loop body of _compute_lowpoints. -/
def lowpoint_visit (v : Int) : PlanarityTester → List Int → Option PlanarityTester
  | st, [] => some st
  | st, w :: ws => do
    let numw ← pyGet st.num w
    let numv ← pyGet st.num v
    if numw < numv then do
      let pv ← pyGet st.parent v
      if numw ≠ pv then do
        let lv ← pyGet st.lowpt v
        let lp ← pySet st.lowpt v (min lv numw)
        lowpoint_visit v { st with lowpt := lp } ws
      else
        lowpoint_visit v st ws
    else if numv < numw then do
      let lv ← pyGet st.lowpt v
      let lw ← pyGet st.lowpt w
      let lp ← pySet st.lowpt v (min lv lw)
      let l2v ← pyGet st.lowpt2 v
      let l2w ← pyGet st.lowpt2 w
      let lp2 ← pySet st.lowpt2 v (min l2v l2w)
      lowpoint_visit v { st with lowpt := lp, lowpt2 := lp2 } ws
    else
      lowpoint_visit v st ws

/-- One iteration of the for-v-in-range(V) loop of _compute_lowpoints. -/
def lowpoint_step (st : PlanarityTester) (v : Int) : Option PlanarityTester := do
  let numv ← pyGet st.num v
  if numv ≠ -1 then do
    let lp ← pySet st.lowpt v numv
    let lp2 ← pySet st.lowpt2 v numv
    lowpoint_visit v { st with lowpt := lp, lowpt2 := lp2 } (dictGet st.graph v)
  else
    some st

/-- PlanarityTester._compute_lowpoints(): iterates v over range(V) in
increasing vertex-id order. -/
def compute_lowpoints (st : PlanarityTester) : Option PlanarityTester :=
  (List.range st.V).foldlM (fun s (v : Nat) => lowpoint_step s (v : Int)) st

/-- The edge_key closure of _sort_edges: (num[e.v2], 0) for a tree edge,
(num[e.v1], 1) for a back edge.  Python tuples compare lexicographically. -/
def edge_key (st : PlanarityTester) (e : Edge) : Option (Int × Int) :=
  if e.sign = 1 then do
    let n ← pyGet st.num e.v2
    some (n, 0)
  else do
    let n ← pyGet st.num e.v1
    some (n, 1)

/-- Lexicographic comparison of decorated (key, edge) pairs: exactly the
order Python's sorted uses on the key tuples; the edge component is
ignored (sorted is stable on equal keys). -/
def keyLe (a b : (Int × Int) × Edge) : Prop :=
  a.1.1 < b.1.1 ∨ (a.1.1 = b.1.1 ∧ a.1.2 ≤ b.1.2)

instance : DecidableRel keyLe := fun a b =>
  inferInstanceAs (Decidable (a.1.1 < b.1.1 ∨ (a.1.1 = b.1.1 ∧ a.1.2 ≤ b.1.2)))

instance : IsTotal ((Int × Int) × Edge) keyLe :=
  ⟨by intro a b; unfold keyLe; omega⟩

instance : IsTrans ((Int × Int) × Edge) keyLe :=
  ⟨by intro a b c; unfold keyLe; omega⟩

/-- Decorate each edge with its computed key, in order (Python's sorted
evaluates the key function once per element, raising if a key raises). -/
def key_edges (st : PlanarityTester) : List Edge → Option (List ((Int × Int) × Edge))
  | [] => some []
  | e :: es => do
    let k ← edge_key st e
    let rest ← key_edges st es
    some ((k, e) :: rest)

/-- PlanarityTester._sort_edges(): sorted(self.edges, key=edge_key).
Python's sorted is a stable sort by the computed keys; it is modelled by
decorating each edge with its key and running a stable insertion sort on
the key component. -/
def sort_edges (st : PlanarityTester) : Option PlanarityTester := do
  let keyed ← key_edges st st.edges
  some { st with sorted_edges := (List.insertionSort keyLe keyed).map Prod.snd }

/-- The while-loop of _compute_nesting_depth.  numw is num[edge.v2];
the loop walks v up the parent chain while num[v] > numw.  Fuel bounds
the iteration count. -/
def nesting_depth_go (st : PlanarityTester) (numw : Int) (fuel : Nat) : Int → Nat → Option Nat :=
  Nat.rec (motive := fun _ => Int → Nat → Option Nat)
    (fun _ _ => none)
    (fun _ recurse v depth => do
      let numv ← pyGet st.num v
      if numw < numv then do
        let pv ← pyGet st.parent v
        recurse pv (depth + 1)
      else
        some depth)
    fuel

/-- Unfolding equation: out of fuel. -/
theorem nesting_depth_go_zero (st : PlanarityTester) (numw : Int) (v : Int) (depth : Nat) :
    nesting_depth_go st numw 0 v depth = none := rfl

/-- Unfolding equation: one iteration of the parent-chain walk. -/
theorem nesting_depth_go_succ (st : PlanarityTester) (numw : Int) (fuel : Nat)
    (v : Int) (depth : Nat) :
    nesting_depth_go st numw (fuel + 1) v depth = (do
      let numv ← pyGet st.num v
      if numw < numv then do
        let pv ← pyGet st.parent v
        nesting_depth_go st numw fuel pv (depth + 1)
      else
        some depth) := rfl

/-- PlanarityTester._compute_nesting_depth(edge).  In any state produced
by the DFS the parent chain strictly decreases in num, so the walk takes
at most num.length steps and the fuel below is sufficient. -/
def compute_nesting_depth (st : PlanarityTester) (e : Edge) : Option Nat := do
  let numw ← pyGet st.num e.v2
  nesting_depth_go st numw (st.num.length + 1) e.v1 0

/-- PlanarityTester._edges_cross(edge1, edge2): sort each edge's
endpoints by num and test strict interleaving of the two spans. -/
def edges_cross (st : PlanarityTester) (e1 e2 : Edge) : Option Bool := do
  let a1 ← pyGet st.num e1.v1
  let b1 ← pyGet st.num e1.v2
  let a2 ← pyGet st.num e2.v1
  let b2 ← pyGet st.num e2.v2
  let p1 := if b1 < a1 then (b1, a1) else (a1, b1)
  let p2 := if b2 < a2 then (b2, a2) else (a2, b2)
  some (decide ((p1.1 < p2.1 ∧ p2.1 < p1.2 ∧ p1.2 < p2.2) ∨
                (p2.1 < p1.1 ∧ p1.1 < p2.2 ∧ p2.2 < p1.2)))

/-- The inner for-edge2-in-target loop of _merge_edges: stops at the
first crossing found. -/
def cross_any (st : PlanarityTester) (e1 : Edge) : List Edge → Option Bool
  | [] => some false
  | e2 :: rest => do
    let c ← edges_cross st e1 e2
    cond c (some true) (cross_any st e1 rest)

/-- The nested loops of _merge_edges: true iff some edge of bucket
crosses some edge of target, stopping at the first crossing. -/
def bucket_cross (st : PlanarityTester) : List Edge → List Edge → Option Bool
  | [], _ => some false
  | e1 :: b, tgt => do
    let c ← cross_any st e1 tgt
    cond c (some true) (bucket_cross st b tgt)

/-- PlanarityTester._merge_edges(bucket, target).  Returns the boolean
result together with the (possibly extended) target list.  Python's
check "if not target" is true both for None and for an empty list, and
in both cases the function returns True without touching target. -/
def merge_edges (st : PlanarityTester) (bucket : List Edge) :
    Option (List Edge) → Option (Bool × Option (List Edge))
  | none => some (true, none)
  | some tgt =>
    if tgt.isEmpty then some (true, some tgt)
    else do
      let c ← bucket_cross st bucket tgt
      cond c (some (false, some tgt)) (some (true, some (tgt ++ bucket)))

/-- After a pop has merged the popped bucket into the top of the
remaining stack, the (possibly extended) returned target list replaces
that top; with an empty remaining stack there is nothing to replace. -/
def replace_top : List (List Edge) → Option (List Edge) → List (List Edge)
  | _ :: rs, some t => t :: rs
  | rest, none => rest
  | [], some _ => []

/-- The while len(stack) > height loop of _test_planarity.  The stack is
kept top-first (Python appends and pops at the right end).  The fuel is
the number of pops still possible; pop_merge passes stack.length, which
is exactly enough, so the fuel-exhausted case is unreachable.  The outer
Option is a Python exception, the inner none is the early return False
of _test_planarity on a failed merge. -/
def pop_merge_go (st : PlanarityTester) (h : Nat) (fuel : Nat) :
    List (List Edge) → Int → Option (Option (List (List Edge) × Int)) :=
  Nat.rec (motive := fun _ => List (List Edge) → Int → Option (Option (List (List Edge) × Int)))
    (fun stack ch => if stack.length ≤ h then some (some (stack, ch)) else none)
    (fun _ recurse stack ch =>
      if stack.length ≤ h then some (some (stack, ch))
      else
        match stack with
        | [] => some (some ([], ch))
        | bucket :: rest => do
          let r ← merge_edges st bucket rest.head?
          cond r.1 (recurse (replace_top rest r.2) (ch - 1)) (some none))
    fuel

/-- Unfolding equation: out of fuel (the loop never reaches it). -/
theorem pop_merge_go_zero (st : PlanarityTester) (h : Nat)
    (stack : List (List Edge)) (ch : Int) :
    pop_merge_go st h 0 stack ch =
      if stack.length ≤ h then some (some (stack, ch)) else none := rfl

/-- Unfolding equation: one test of the while condition. -/
theorem pop_merge_go_succ (st : PlanarityTester) (h : Nat) (fuel : Nat)
    (stack : List (List Edge)) (ch : Int) :
    pop_merge_go st h (fuel + 1) stack ch =
      (if stack.length ≤ h then some (some (stack, ch))
       else
         match stack with
         | [] => some (some ([], ch))
         | bucket :: rest => do
           let r ← merge_edges st bucket rest.head?
           cond r.1 (pop_merge_go st h fuel (replace_top rest r.2) (ch - 1))
             (some none)) := rfl

/-- The pop/merge loop entered for a back edge, at target height h. -/
def pop_merge (st : PlanarityTester) (h : Nat) (stack : List (List Edge)) (ch : Int) :
    Option (Option (List (List Edge) × Int)) :=
  pop_merge_go st h stack.length stack ch

/-- The final while len(stack) > 1 clean-up loop of _test_planarity. -/
def cleanup_go (st : PlanarityTester) (fuel : Nat) : List (List Edge) → Option Bool :=
  Nat.rec (motive := fun _ => List (List Edge) → Option Bool)
    (fun stack => if stack.length ≤ 1 then some true else none)
    (fun _ recurse stack =>
      if stack.length ≤ 1 then some true
      else
        match stack with
        | [] => some true
        | bucket :: rest => do
          let r ← merge_edges st bucket rest.head?
          cond r.1 (recurse (replace_top rest r.2)) (some false))
    fuel

/-- Unfolding equation: out of fuel (the loop never reaches it). -/
theorem cleanup_go_zero (st : PlanarityTester) (stack : List (List Edge)) :
    cleanup_go st 0 stack = if stack.length ≤ 1 then some true else none := rfl

/-- Unfolding equation: one test of the clean-up while condition. -/
theorem cleanup_go_succ (st : PlanarityTester) (fuel : Nat) (stack : List (List Edge)) :
    cleanup_go st (fuel + 1) stack =
      (if stack.length ≤ 1 then some true
       else
         match stack with
         | [] => some true
         | bucket :: rest => do
           let r ← merge_edges st bucket rest.head?
           cond r.1 (cleanup_go st fuel (replace_top rest r.2)) (some false)) := rfl

/-- Clean-up entry point, with exactly sufficient fuel. -/
def cleanup_stack (st : PlanarityTester) (stack : List (List Edge)) : Option Bool :=
  cleanup_go st stack.length stack

/-- Appending the back edge to the top bucket: Python's
"if stack: stack[-1].append(edge)" (no effect on an empty stack). -/
def append_to_top (e : Edge) : List (List Edge) → List (List Edge)
  | [] => []
  | top :: rs => (top ++ [e]) :: rs

/-- The for-edge-in-sorted_edges fold of _test_planarity, carrying the
bucket stack (top first) and current_height. -/
def test_planarity_loop (st : PlanarityTester) :
    List Edge → List (List Edge) → Int → Option Bool
  | [], stack, _ => cleanup_stack st stack
  | e :: rest, stack, ch =>
    if e.sign = 1 then
      test_planarity_loop st rest ([] :: stack) (ch + 1)
    else do
      let d ← compute_nesting_depth st e
      if (d : Int) > ch then some false
      else do
        let r ← pop_merge st d stack ch
        r.elim (some false)
          (fun s => test_planarity_loop st rest (append_to_top e s.1) s.2)

/-- PlanarityTester._test_planarity(). -/
def test_planarity (st : PlanarityTester) : Option Bool :=
  test_planarity_loop st st.sorted_edges [] 0

/-- PlanarityTester.is_planar().  Returns the final object state paired
with the boolean result; the Python method mutates the object in place
and returns only the boolean. -/
def is_planar (st : PlanarityTester) : Option (PlanarityTester × Bool) := do
  let p ← compute_numbers (st.V + 1) st 0
  cond p.2
    (do
      let st2 ← compute_lowpoints p.1
      let st3 ← sort_edges st2
      let b ← test_planarity st3
      some (st3, b))
    (some (p.1, false))

/-- The boolean value returned by is_planar (none on a Python exception). -/
def is_planar_bool (st : PlanarityTester) : Option Bool :=
  (is_planar st).map Prod.snd

/-- Two consecutive invocations of is_planar on the same tester object:
the second call runs on the state the first call left behind. -/
def run_twice (st : PlanarityTester) : Option (Bool × Bool) := do
  let p1 ← is_planar st
  let p2 ← is_planar p1.1
  some (p1.2, p2.2)

/-- Build a tester and add a list of edges, in order. -/
def build (vertices : Nat) (es : List (Int × Int)) : PlanarityTester :=
  es.foldl (fun s p => add_edge s p.1 p.2) (mkTester vertices)

/-- The K4 demo graph of tarjan.py. -/
def k4g : PlanarityTester :=
  build 4 [(0, 1), (0, 2), (0, 3), (1, 2), (1, 3), (2, 3)]

/-- The K5 demo graph of tarjan.py (the demo's double loop adds the
pairs (i, j) with i < j in this order). -/
def k5g : PlanarityTester :=
  build 5 [(0, 1), (0, 2), (0, 3), (0, 4), (1, 2), (1, 3), (1, 4), (2, 3), (2, 4), (3, 4)]

/-- Disjoint union of the planar edge 0-1 and a K5 on vertices 2..6. -/
def c1g : PlanarityTester :=
  build 7 [(0, 1), (2, 3), (2, 4), (2, 5), (2, 6), (3, 4), (3, 5), (3, 6), (4, 5), (4, 6), (5, 6)]

/-- The one-edge path graph on vertices 0, 1. -/
def path2g : PlanarityTester := build 2 [(0, 1)]

/-- The triangle graph 0-1-2. -/
def c3cycle : PlanarityTester := build 3 [(0, 1), (1, 2), (2, 0)]

/-- The part of is_planar that runs before the lowpoint phase ends:
numbering from vertex 0 followed by _compute_lowpoints (reached only
when numbering returns True, as in is_planar). -/
def lowpoint_stage (st : PlanarityTester) : Option PlanarityTester := do
  let p ← compute_numbers (st.V + 1) st 0
  cond p.2 (compute_lowpoints p.1) none

/-- The state of is_planar just after _sort_edges has run. -/
def sorted_stage (st : PlanarityTester) : Option PlanarityTester := do
  let s1 ← lowpoint_stage st
  sort_edges s1

/-- The edge key claimed by the specification (C6): a tree edge is keyed
by the dfsNumber of its child endpoint e.v2, and a back edge by the
dfsNumber of its ancestor (upper) endpoint, which for a back edge
Edge(v, w) recorded by the DFS is also e.v2.  This definition follows
the spec's words, for comparison with edge_key, which the code uses. -/
def claim_edge_key (st : PlanarityTester) (e : Edge) : Option Int :=
  if e.sign = 1 then pyGet st.num e.v2 else pyGet st.num e.v2

/-- Total version of claim_edge_key used inside decidable statements. -/
def claim_key_val (st : PlanarityTester) (e : Edge) : Int :=
  (claim_edge_key st e).getD 0

/-- C1 counterexample: on the disjoint union of the planar edge 0-1 and
a K5 on vertices 2..6, is_planar returns true, not false as claimed. -/
theorem c1_counterexample :
    is_planar_bool c1g = some true ∧ is_planar_bool c1g ≠ some false := by
  decide

/-- C1 amended: is_planar runs a single DFS from vertex 0 only, so on
the disjoint union of a planar component containing 0 and a K5 on
vertices 2..6 it returns true; the K5 vertices keep dfs number -1 and
none of the K5 edges is ever classified. -/
theorem c1_amended_component_zero_only :
    is_planar_bool c1g = some true ∧
    (is_planar c1g).map (fun p => p.1.edges) = some [⟨0, 1, 1⟩] ∧
    (is_planar c1g).map
        (fun p => (pyGet p.1.num 2, pyGet p.1.num 3, pyGet p.1.num 4,
                   pyGet p.1.num 5, pyGet p.1.num 6)) =
      some (some (-1), some (-1), some (-1), some (-1), some (-1)) := by
  decide

/-- C4: the K5 demo graph is reported non-planar. -/
theorem c4_k5_not_planar : is_planar_bool k5g = some false := by
  decide

/-- C7 counterexample: two consecutive invocations of is_planar on the
same K4 tester object return different booleans. -/
theorem c7_counterexample :
    (run_twice k4g).map (fun p => decide (p.1 = p.2)) = some false := by
  decide

/-- C7 amended: derived state (counter, num and the edges list) persists
on the tester object across invocations, so a second invocation can
differ: on K4 the first call returns true and the second false. -/
theorem c7_amended_state_persists : run_twice k4g = some (true, false) := by
  decide

/-- C8 counterexample: on a tester with vertexCount 0, is_planar does
not return true: _compute_numbers(0) hits an out-of-range list write
(IndexError), modelled by none. -/
theorem c8_counterexample :
    is_planar_bool (mkTester 0) = none ∧ is_planar_bool (mkTester 0) ≠ some true := by
  decide

/-- C2 counterexample: add_edge performs no validation at all: the
self-loop call add_edge(g, 0, 0) does not fail and does not leave the
adjacency unchanged; it appends 0 twice to graph[0]. -/
theorem c2_counterexample :
    dictGet (add_edge (mkTester 1) 0 0).graph 0 = [0, 0] ∧
    dictGet (add_edge (mkTester 1) 0 0).graph 0 ≠ dictGet (mkTester 1).graph 0 := by
  decide

/-- C5 counterexample: in the path graph 0-1, after the lowpoint phase
of is_planar, vertex 0 has dfs number 1, its only tree child 1 has dfs
number 2, and there are no back edges, so the claimed equations give
lowpt[0] = min(1, lowpt[1]) with lowpt[1] = 2; the code instead leaves
lowpt[0] = -1 (the child's lowpt is read before it is computed, and the
tree edge to the parent is treated as a back edge when its dfs number
differs from the parent id). -/
theorem c5_counterexample :
    (lowpoint_stage path2g).map
        (fun s => (pyGet s.num 0, pyGet s.num 1, pyGet s.lowpt 0, pyGet s.lowpt 1)) =
      some (some 1, some 2, some (-1), some 1) ∧
    (lowpoint_stage path2g).map
        (fun s => decide (pyGet s.lowpt 0 = some (min 1 2))) = some false := by
  decide

/-- C6 counterexample: on the triangle 0-1-2, the code's sorted edge
order is tree(0,1), tree(1,2), back(2,0); the back edge's claimed key
(the dfs number 1 of its ancestor endpoint 0) is smaller than the tree
edges' keys 2 and 3, so the produced order is not sorted by the claimed
keys. -/
theorem c6_counterexample :
    (sorted_stage c3cycle).map (fun s => s.sorted_edges.map (claim_edge_key s)) =
      some [some 2, some 3, some 1] ∧
    (sorted_stage c3cycle).map
        (fun s => decide (s.sorted_edges.Pairwise
          (fun e1 e2 => claim_key_val s e1 ≤ claim_key_val s e2))) = some false := by
  decide

/-- Reading a key just appended to: the stored list gains x at the end. -/
theorem dictGet_dictAppend_eq (g : List (Int × List Int)) (k x : Int) :
    dictGet (dictAppend g k x) k = dictGet g k ++ [x] := by
  induction g with
  | nil => simp [dictGet, dictAppend]
  | cons p rest ih =>
    obtain ⟨k0, l⟩ := p
    by_cases h : k0 = k
    · simp [dictGet, dictAppend, h]
    · simp [dictGet, dictAppend, h, ih]

/-- Appending under one key leaves every other key unchanged. -/
theorem dictGet_dictAppend_ne (g : List (Int × List Int)) (k x k' : Int) (h : k' ≠ k) :
    dictGet (dictAppend g k x) k' = dictGet g k' := by
  have hkk : ¬ k = k' := fun hk => h hk.symm
  induction g with
  | nil => simp only [dictAppend, dictGet, if_neg hkk]
  | cons p rest ih =>
    obtain ⟨k0, l⟩ := p
    by_cases h0 : k0 = k
    · rw [h0]
      simp only [dictAppend, if_pos rfl, dictGet, if_neg hkk]
    · simp only [dictAppend, if_neg h0, dictGet]
      by_cases h1 : k0 = k'
      · simp only [if_pos h1]
      · simp only [if_neg h1, ih]

/-- C2 amended: add_edge performs no validation: for all u, v (also
u = v and out-of-range ids) it succeeds, appending v to graph[u] and
then u to graph[v] (for u = v both appends land in the same list), and
no other field of the tester changes. -/
theorem c2_amended_no_validation (st : PlanarityTester) (u v : Int) :
    (u ≠ v →
      dictGet (add_edge st u v).graph u = dictGet st.graph u ++ [v] ∧
      dictGet (add_edge st u v).graph v = dictGet st.graph v ++ [u]) ∧
    dictGet (add_edge st u u).graph u = dictGet st.graph u ++ [u, u] ∧
    (∀ w, w ≠ u → w ≠ v → dictGet (add_edge st u v).graph w = dictGet st.graph w) ∧
    (add_edge st u v).num = st.num ∧ (add_edge st u v).V = st.V ∧
    (add_edge st u v).parent = st.parent ∧ (add_edge st u v).counter = st.counter ∧
    (add_edge st u v).edges = st.edges ∧
    (add_edge st u v).sorted_edges = st.sorted_edges := by
  refine ⟨?_, ?_, ?_, rfl, rfl, rfl, rfl, rfl, rfl⟩
  · intro hne
    constructor
    · rw [show (add_edge st u v).graph = dictAppend (dictAppend st.graph u v) v u from rfl]
      rw [dictGet_dictAppend_ne _ _ _ _ hne, dictGet_dictAppend_eq]
    · rw [show (add_edge st u v).graph = dictAppend (dictAppend st.graph u v) v u from rfl]
      rw [dictGet_dictAppend_eq, dictGet_dictAppend_ne _ _ _ _ (Ne.symm hne)]
  · rw [show (add_edge st u u).graph = dictAppend (dictAppend st.graph u u) u u from rfl]
    rw [dictGet_dictAppend_eq, dictGet_dictAppend_eq, List.append_assoc]
    rfl
  · intro w hwu hwv
    rw [show (add_edge st u v).graph = dictAppend (dictAppend st.graph u v) v u from rfl]
    rw [dictGet_dictAppend_ne _ _ _ _ hwv, dictGet_dictAppend_ne _ _ _ _ hwu]

/-- Witness for c2_amended_no_validation at a concrete tester. -/
theorem c2_amended_witness :
    dictGet (add_edge (mkTester 2) 0 1).graph 0 = [1] ∧
    dictGet (add_edge (mkTester 2) 0 1).graph 1 = [0] := by
  have h := (c2_amended_no_validation (mkTester 2) 0 1).1 (by decide)
  exact ⟨h.1, h.2⟩

/-- pyGet at a nonnegative index is a plain list lookup. -/
theorem pyGet_nonneg {α : Type} (xs : List α) (i : Int) (h : 0 ≤ i) :
    pyGet xs i = xs.get? i.toNat := by
  simp only [pyGet]
  rw [if_neg (by omega : ¬ i < 0), if_pos h]

/-- pyGet at a natural-number index. -/
theorem pyGet_natCast {α : Type} (xs : List α) (n : Nat) :
    pyGet xs (n : Int) = xs.get? n := by
  rw [pyGet_nonneg _ _ (Int.natCast_nonneg n)]
  simp

/-- pySet at a nonnegative index is a bounds-checked list update. -/
theorem pySet_nonneg {α : Type} (xs : List α) (i : Int) (a : α) (h : 0 ≤ i) :
    pySet xs i a = if i < (xs.length : Int) then some (xs.set i.toNat a) else none := by
  simp only [pySet]
  rw [if_neg (by omega : ¬ i < 0)]
  by_cases hlt : i < (xs.length : Int)
  · rw [if_pos ⟨h, hlt⟩, if_pos hlt]
  · rw [if_neg (fun hc => hlt hc.2), if_neg hlt]

/-- pySet at a natural-number index. -/
theorem pySet_natCast {α : Type} (xs : List α) (n : Nat) (a : α) :
    pySet xs (n : Int) a = if n < xs.length then some (xs.set n a) else none := by
  rw [pySet_nonneg _ _ _ (Int.natCast_nonneg n)]
  by_cases h : n < xs.length
  · rw [if_pos (by omega), if_pos h]
    simp
  · rw [if_neg (by omega), if_neg h]

/-- Unpacking a successful pySet at a nonnegative index. -/
theorem pySet_nonneg_some {α : Type} {xs ys : List α} {i : Int} {a : α}
    (hi : 0 ≤ i) (h : pySet xs i a = some ys) :
    i.toNat < xs.length ∧ ys = xs.set i.toNat a := by
  rw [pySet_nonneg _ _ _ hi] at h
  by_cases hlt : i < (xs.length : Int)
  · rw [if_pos hlt] at h
    exact ⟨by omega, (Option.some_injective _ h).symm⟩
  · rw [if_neg hlt] at h
    exact absurd h (by simp)

/-- A successful pySet preserves the length. -/
theorem pySet_length {α : Type} {xs ys : List α} {i : Int} {a : α}
    (h : pySet xs i a = some ys) : ys.length = xs.length := by
  simp only [pySet] at h
  by_cases hc : 0 ≤ (if i < 0 then i + (xs.length : Int) else i) ∧
      (if i < 0 then i + (xs.length : Int) else i) < (xs.length : Int)
  · rw [if_pos hc] at h
    rw [← Option.some_injective _ h]
    exact List.length_set _ _ _
  · rw [if_neg hc] at h
    exact absurd h (by simp)

/-- Two successful pyGets at the same index into lists of equal length
resolve to the same position. -/
theorem pyGet_pair {α β : Type} {xs : List α} {ys : List β}
    (hlen : xs.length = ys.length) {i : Int} {a : α} {b : β}
    (ha : pyGet xs i = some a) (hb : pyGet ys i = some b) :
    ∃ j : Nat, xs.get? j = some a ∧ ys.get? j = some b := by
  simp only [pyGet] at ha hb
  rw [← hlen] at hb
  by_cases h0 : 0 ≤ (if i < 0 then i + (xs.length : Int) else i)
  · rw [if_pos h0] at ha hb
    exact ⟨_, ha, hb⟩
  · rw [if_neg h0] at ha
    exact absurd ha (by simp)

/-- The running invariant of the lowpoint phase: the two lowpoint lists
have the same length and are pointwise ordered, lowpt at most lowpt2. -/
def LowptInv (st : PlanarityTester) : Prop :=
  st.lowpt.length = st.lowpt2.length ∧
  ∀ j : Nat, ∀ l l2 : Int,
    st.lowpt.get? j = some l → st.lowpt2.get? j = some l2 → l ≤ l2


/-- The neighbor loop of _compute_lowpoints preserves LowptInv, touches
only position v of lowpt and lowpt2, never increases either entry at v,
and leaves every other field unchanged. -/
theorem lowpoint_visit_spec (v : Int) (hv : 0 ≤ v) :
    ∀ (ws : List Int) (st st1 : PlanarityTester),
    lowpoint_visit v st ws = some st1 → LowptInv st →
    LowptInv st1 ∧
    st1.num = st.num ∧ st1.parent = st.parent ∧ st1.graph = st.graph ∧
    st1.V = st.V ∧ st1.counter = st.counter ∧ st1.edges = st.edges ∧
    st1.sorted_edges = st.sorted_edges ∧
    st1.lowpt.length = st.lowpt.length ∧ st1.lowpt2.length = st.lowpt2.length ∧
    (∀ j : Nat, j ≠ v.toNat →
      st1.lowpt.get? j = st.lowpt.get? j ∧ st1.lowpt2.get? j = st.lowpt2.get? j) ∧
    (∀ lv : Int, st.lowpt.get? v.toNat = some lv →
      ∃ lv1, st1.lowpt.get? v.toNat = some lv1 ∧ lv1 ≤ lv) ∧
    (∀ l2v : Int, st.lowpt2.get? v.toNat = some l2v →
      ∃ l2v1, st1.lowpt2.get? v.toNat = some l2v1 ∧ l2v1 ≤ l2v) := by
  intro ws
  induction ws with
  | nil =>
    intro st st1 h hI
    simp only [lowpoint_visit] at h
    have hst : st1 = st := (Option.some_injective _ h).symm
    subst hst
    refine ⟨hI, rfl, rfl, rfl, rfl, rfl, rfl, rfl, rfl, rfl, fun j _ => ⟨rfl, rfl⟩,
      fun lv hlv => ⟨lv, hlv, le_refl lv⟩, fun l2v hl2v => ⟨l2v, hl2v, le_refl l2v⟩⟩
  | cons w ws ih =>
    intro st st1 h hI
    simp only [lowpoint_visit] at h
    cases hnw : pyGet st.num w with
    | none =>
      rw [hnw] at h
      simp only [Option.bind_eq_bind, Option.none_bind] at h
      exact Option.noConfusion h
    | some numw =>
    rw [hnw] at h
    simp only [Option.bind_eq_bind, Option.some_bind] at h
    cases hnv : pyGet st.num v with
    | none =>
      rw [hnv] at h
      simp only [Option.bind_eq_bind, Option.none_bind] at h
      exact Option.noConfusion h
    | some numv =>
    rw [hnv] at h
    simp only [Option.bind_eq_bind, Option.some_bind] at h
    by_cases hlt : numw < numv
    · rw [if_pos hlt] at h
      cases hpv : pyGet st.parent v with
      | none =>
        rw [hpv] at h
        simp only [Option.bind_eq_bind, Option.none_bind] at h
        exact Option.noConfusion h
      | some pv =>
      rw [hpv] at h
      simp only [Option.bind_eq_bind, Option.some_bind] at h
      by_cases hne : numw ≠ pv
      · rw [if_pos hne] at h
        cases hlv : pyGet st.lowpt v with
        | none =>
          rw [hlv] at h
          simp only [Option.bind_eq_bind, Option.none_bind] at h
          exact Option.noConfusion h
        | some lv =>
        rw [hlv] at h
        simp only [Option.bind_eq_bind, Option.some_bind] at h
        cases hset : pySet st.lowpt v (min lv numw) with
        | none =>
          rw [hset] at h
          simp only [Option.bind_eq_bind, Option.none_bind] at h
          exact Option.noConfusion h
        | some lp =>
        rw [hset] at h
        simp only [Option.bind_eq_bind, Option.some_bind] at h
        obtain ⟨hvlt, hlp⟩ := pySet_nonneg_some hv hset
        rw [pyGet_nonneg _ _ hv] at hlv
        have hIm : LowptInv { st with lowpt := lp } := by
          constructor
          · show lp.length = st.lowpt2.length
            rw [hlp, List.length_set]; exact hI.1
          · intro j l l2 h1 h2
            show l ≤ l2
            by_cases hj : j = v.toNat
            · subst hj
              rw [hlp, List.get?_set_eq_of_lt _ hvlt] at h1
              have hl : l = min lv numw := (Option.some_injective _ h1).symm
              have hrel := hI.2 v.toNat lv l2 hlv h2
              calc l = min lv numw := hl
                _ ≤ lv := min_le_left _ _
                _ ≤ l2 := hrel
            · rw [hlp, List.get?_set_ne _ _ (fun hc => hj hc.symm)] at h1
              exact hI.2 j l l2 h1 h2
        obtain ⟨hI1, hnum, hpar, hgr, hV, hcnt, hed, hsed, hlen1, hlen2, hfr, hdec, hdec2⟩ :=
          ih _ st1 h hIm
        refine ⟨hI1, hnum, hpar, hgr, hV, hcnt, hed, hsed, ?_, hlen2, ?_, ?_, hdec2⟩
        · rw [hlen1]
          show lp.length = st.lowpt.length
          rw [hlp]; exact List.length_set _ _ _
        · intro j hj
          obtain ⟨h1, h2⟩ := hfr j hj
          refine ⟨?_, h2⟩
          rw [h1]
          show lp.get? j = st.lowpt.get? j
          rw [hlp]; exact List.get?_set_ne _ _ (fun hc => hj hc.symm)
        · intro lv0 hlv0
          have hlv0' : lv0 = lv := by
            rw [hlv0] at hlv; exact (Option.some_injective _ hlv)
          have hmid : ({ st with lowpt := lp } : PlanarityTester).lowpt.get? v.toNat =
              some (min lv numw) := by
            show lp.get? v.toNat = _
            rw [hlp]; exact List.get?_set_eq_of_lt _ hvlt
          obtain ⟨lv1, hg, hle⟩ := hdec (min lv numw) hmid
          exact ⟨lv1, hg, by rw [hlv0']; exact le_trans hle (min_le_left _ _)⟩
      · rw [if_neg hne] at h
        exact ih _ st1 h hI
    · rw [if_neg hlt] at h
      by_cases hgt : numv < numw
      · rw [if_pos hgt] at h
        cases hlv : pyGet st.lowpt v with
        | none =>
          rw [hlv] at h
          simp only [Option.bind_eq_bind, Option.none_bind] at h
          exact Option.noConfusion h
        | some lv =>
        rw [hlv] at h
        simp only [Option.bind_eq_bind, Option.some_bind] at h
        cases hlw : pyGet st.lowpt w with
        | none =>
          rw [hlw] at h
          simp only [Option.bind_eq_bind, Option.none_bind] at h
          exact Option.noConfusion h
        | some lw =>
        rw [hlw] at h
        simp only [Option.bind_eq_bind, Option.some_bind] at h
        cases hset : pySet st.lowpt v (min lv lw) with
        | none =>
          rw [hset] at h
          simp only [Option.bind_eq_bind, Option.none_bind] at h
          exact Option.noConfusion h
        | some lp =>
        rw [hset] at h
        simp only [Option.bind_eq_bind, Option.some_bind] at h
        cases hl2v : pyGet st.lowpt2 v with
        | none =>
          rw [hl2v] at h
          simp only [Option.bind_eq_bind, Option.none_bind] at h
          exact Option.noConfusion h
        | some l2v =>
        rw [hl2v] at h
        simp only [Option.bind_eq_bind, Option.some_bind] at h
        cases hl2w : pyGet st.lowpt2 w with
        | none =>
          rw [hl2w] at h
          simp only [Option.bind_eq_bind, Option.none_bind] at h
          exact Option.noConfusion h
        | some l2w =>
        rw [hl2w] at h
        simp only [Option.bind_eq_bind, Option.some_bind] at h
        cases hset2 : pySet st.lowpt2 v (min l2v l2w) with
        | none =>
          rw [hset2] at h
          simp only [Option.bind_eq_bind, Option.none_bind] at h
          exact Option.noConfusion h
        | some lp2 =>
        rw [hset2] at h
        simp only [Option.bind_eq_bind, Option.some_bind] at h
        obtain ⟨hvlt, hlp⟩ := pySet_nonneg_some hv hset
        obtain ⟨hvlt2, hlp2⟩ := pySet_nonneg_some hv hset2
        rw [pyGet_nonneg _ _ hv] at hlv hl2v
        obtain ⟨jw, hjw1, hjw2⟩ := pyGet_pair hI.1 hlw hl2w
        have hlw_le : lw ≤ l2w := hI.2 jw lw l2w hjw1 hjw2
        have hlv_le : lv ≤ l2v := hI.2 v.toNat lv l2v hlv hl2v
        have hIm : LowptInv { st with lowpt := lp, lowpt2 := lp2 } := by
          constructor
          · show lp.length = lp2.length
            rw [hlp, hlp2, List.length_set, List.length_set]; exact hI.1
          · intro j l l2 h1 h2
            show l ≤ l2
            by_cases hj : j = v.toNat
            · subst hj
              rw [hlp, List.get?_set_eq_of_lt _ hvlt] at h1
              rw [hlp2, List.get?_set_eq_of_lt _ hvlt2] at h2
              have hl : l = min lv lw := (Option.some_injective _ h1).symm
              have hl2 : l2 = min l2v l2w := (Option.some_injective _ h2).symm
              rw [hl, hl2]
              exact min_le_min hlv_le hlw_le
            · rw [hlp, List.get?_set_ne _ _ (fun hc => hj hc.symm)] at h1
              rw [hlp2, List.get?_set_ne _ _ (fun hc => hj hc.symm)] at h2
              exact hI.2 j l l2 h1 h2
        obtain ⟨hI1, hnum, hpar, hgr, hV, hcnt, hed, hsed, hlen1, hlen2, hfr, hdec, hdec2⟩ :=
          ih _ st1 h hIm
        refine ⟨hI1, hnum, hpar, hgr, hV, hcnt, hed, hsed, ?_, ?_, ?_, ?_, ?_⟩
        · rw [hlen1]
          show lp.length = st.lowpt.length
          rw [hlp]; exact List.length_set _ _ _
        · rw [hlen2]
          show lp2.length = st.lowpt2.length
          rw [hlp2]; exact List.length_set _ _ _
        · intro j hj
          obtain ⟨h1, h2⟩ := hfr j hj
          constructor
          · rw [h1]
            show lp.get? j = st.lowpt.get? j
            rw [hlp]; exact List.get?_set_ne _ _ (fun hc => hj hc.symm)
          · rw [h2]
            show lp2.get? j = st.lowpt2.get? j
            rw [hlp2]; exact List.get?_set_ne _ _ (fun hc => hj hc.symm)
        · intro lv0 hlv0
          have hlv0' : lv0 = lv := by
            rw [hlv0] at hlv; exact (Option.some_injective _ hlv)
          have hmid : ({ st with lowpt := lp, lowpt2 := lp2 } :
              PlanarityTester).lowpt.get? v.toNat = some (min lv lw) := by
            show lp.get? v.toNat = _
            rw [hlp]; exact List.get?_set_eq_of_lt _ hvlt
          obtain ⟨lv1, hg, hle⟩ := hdec (min lv lw) hmid
          exact ⟨lv1, hg, by rw [hlv0']; exact le_trans hle (min_le_left _ _)⟩
        · intro l2v0 hl2v0
          have hl2v0' : l2v0 = l2v := by
            rw [hl2v0] at hl2v; exact (Option.some_injective _ hl2v)
          have hmid : ({ st with lowpt := lp, lowpt2 := lp2 } :
              PlanarityTester).lowpt2.get? v.toNat = some (min l2v l2w) := by
            show lp2.get? v.toNat = _
            rw [hlp2]; exact List.get?_set_eq_of_lt _ hvlt2
          obtain ⟨l2v1, hg, hle⟩ := hdec2 (min l2v l2w) hmid
          exact ⟨l2v1, hg, by rw [hl2v0']; exact le_trans hle (min_le_left _ _)⟩
      · rw [if_neg hgt] at h
        exact ih _ st1 h hI

/-- One iteration of the vertex loop of _compute_lowpoints: preserves
LowptInv, writes only position v, and for a visited v leaves
lowpt[v] at most num[v]. -/
theorem lowpoint_step_spec (st st1 : PlanarityTester) (v : Int) (hv : 0 ≤ v)
    (h : lowpoint_step st v = some st1) (hI : LowptInv st) :
    LowptInv st1 ∧ st1.num = st.num ∧ st1.V = st.V ∧
    st1.lowpt.length = st.lowpt.length ∧ st1.lowpt2.length = st.lowpt2.length ∧
    (∀ j : Nat, j ≠ v.toNat →
      st1.lowpt.get? j = st.lowpt.get? j ∧ st1.lowpt2.get? j = st.lowpt2.get? j) ∧
    (∀ n : Int, pyGet st.num v = some n → n ≠ -1 →
      ∃ lval, st1.lowpt.get? v.toNat = some lval ∧ lval ≤ n) := by
  simp only [lowpoint_step] at h
  cases hnv : pyGet st.num v with
  | none =>
    rw [hnv] at h
    simp only [Option.bind_eq_bind, Option.none_bind] at h
    exact Option.noConfusion h
  | some numv =>
  rw [hnv] at h
  simp only [Option.bind_eq_bind, Option.some_bind] at h
  by_cases hvis : numv ≠ -1
  · rw [if_pos hvis] at h
    cases hset : pySet st.lowpt v numv with
    | none =>
      rw [hset] at h
      simp only [Option.bind_eq_bind, Option.none_bind] at h
      exact Option.noConfusion h
    | some lp =>
    rw [hset] at h
    simp only [Option.bind_eq_bind, Option.some_bind] at h
    cases hset2 : pySet st.lowpt2 v numv with
    | none =>
      rw [hset2] at h
      simp only [Option.bind_eq_bind, Option.none_bind] at h
      exact Option.noConfusion h
    | some lp2 =>
    rw [hset2] at h
    simp only [Option.bind_eq_bind, Option.some_bind] at h
    obtain ⟨hvlt, hlp⟩ := pySet_nonneg_some hv hset
    obtain ⟨hvlt2, hlp2⟩ := pySet_nonneg_some hv hset2
    have hIm : LowptInv { st with lowpt := lp, lowpt2 := lp2 } := by
      constructor
      · show lp.length = lp2.length
        rw [hlp, hlp2, List.length_set, List.length_set]; exact hI.1
      · intro j l l2 h1 h2
        show l ≤ l2
        by_cases hj : j = v.toNat
        · subst hj
          rw [hlp, List.get?_set_eq_of_lt _ hvlt] at h1
          rw [hlp2, List.get?_set_eq_of_lt _ hvlt2] at h2
          rw [← Option.some_injective _ h1, ← Option.some_injective _ h2]
        · rw [hlp, List.get?_set_ne _ _ (fun hc => hj hc.symm)] at h1
          rw [hlp2, List.get?_set_ne _ _ (fun hc => hj hc.symm)] at h2
          exact hI.2 j l l2 h1 h2
    obtain ⟨hI1, hnum, hpar, hgr, hV, hcnt, hed, hsed, hlen1, hlen2, hfr, hdec, hdec2⟩ :=
      lowpoint_visit_spec v hv _ _ st1 h hIm
    refine ⟨hI1, hnum, hV, ?_, ?_, ?_, ?_⟩
    · rw [hlen1]
      show lp.length = st.lowpt.length
      rw [hlp]; exact List.length_set _ _ _
    · rw [hlen2]
      show lp2.length = st.lowpt2.length
      rw [hlp2]; exact List.length_set _ _ _
    · intro j hj
      obtain ⟨h1, h2⟩ := hfr j hj
      constructor
      · rw [h1]
        show lp.get? j = st.lowpt.get? j
        rw [hlp]; exact List.get?_set_ne _ _ (fun hc => hj hc.symm)
      · rw [h2]
        show lp2.get? j = st.lowpt2.get? j
        rw [hlp2]; exact List.get?_set_ne _ _ (fun hc => hj hc.symm)
    · intro n hn hne
      have hn' : n = numv := (Option.some_injective _ hn).symm
      have hmid : ({ st with lowpt := lp, lowpt2 := lp2 } :
          PlanarityTester).lowpt.get? v.toNat = some numv := by
        show lp.get? v.toNat = _
        rw [hlp]; exact List.get?_set_eq_of_lt _ hvlt
      obtain ⟨lval, hg, hle⟩ := hdec numv hmid
      exact ⟨lval, hg, by rw [hn']; exact hle⟩
  · rw [if_neg hvis] at h
    have hst : st1 = st := (Option.some_injective _ h).symm
    subst hst
    refine ⟨hI, rfl, rfl, rfl, rfl, fun j _ => ⟨rfl, rfl⟩, ?_⟩
    intro n hn hne
    have hn' : n = numv := (Option.some_injective _ hn).symm
    simp only [not_not] at hvis
    exact absurd (hn'.trans hvis) hne

/-- The vertex loop of _compute_lowpoints over a duplicate-free index
list: preserves LowptInv, leaves untouched positions unchanged, and
forces lowpt[v] at most num[v] for every visited v in the list. -/
theorem lowpoints_fold_spec :
    ∀ (l : List Nat), l.Nodup →
    ∀ st st1 : PlanarityTester,
    l.foldlM (fun s (v : Nat) => lowpoint_step s (v : Int)) st = some st1 →
    LowptInv st →
    LowptInv st1 ∧ st1.num = st.num ∧ st1.V = st.V ∧
    st1.lowpt.length = st.lowpt.length ∧ st1.lowpt2.length = st.lowpt2.length ∧
    (∀ j : Nat, j ∉ l →
      st1.lowpt.get? j = st.lowpt.get? j ∧ st1.lowpt2.get? j = st.lowpt2.get? j) ∧
    (∀ v ∈ l, ∀ n : Int, pyGet st.num (v : Int) = some n → n ≠ -1 →
      ∃ lval, st1.lowpt.get? v = some lval ∧ lval ≤ n) := by
  intro l
  induction l with
  | nil =>
    intro _ st st1 h hI
    simp only [List.foldlM_nil] at h
    have hst : st1 = st := (Option.some_injective _ h).symm
    subst hst
    exact ⟨hI, rfl, rfl, rfl, rfl, fun j _ => ⟨rfl, rfl⟩,
      fun v hv => absurd hv (List.not_mem_nil v)⟩
  | cons x xs ih =>
    intro hnd st st1 h hI
    obtain ⟨hx, hnd'⟩ := List.nodup_cons.mp hnd
    simp only [List.foldlM_cons] at h
    cases hstep : lowpoint_step st (x : Int) with
    | none =>
      rw [hstep] at h
      simp only [Option.bind_eq_bind, Option.none_bind] at h
      exact Option.noConfusion h
    | some stm =>
    rw [hstep] at h
    simp only [Option.bind_eq_bind, Option.some_bind] at h
    have hx0 : (0 : Int) ≤ (x : Int) := Int.natCast_nonneg x
    have hxt : ((x : Int)).toNat = x := by omega
    obtain ⟨hIm, hnumm, hVm, hlen1m, hlen2m, hfrm, hvism⟩ :=
      lowpoint_step_spec st stm (x : Int) hx0 hstep hI
    obtain ⟨hI1, hnum1, hV1, hlen11, hlen21, hfr1, hper1⟩ := ih hnd' stm st1 h hIm
    refine ⟨hI1, by rw [hnum1, hnumm], by rw [hV1, hVm], by rw [hlen11, hlen1m],
      by rw [hlen21, hlen2m], ?_, ?_⟩
    · intro j hj
      have hjx : j ≠ x := fun hc => hj (by rw [hc]; exact List.mem_cons_self x xs)
      have hjxs : j ∉ xs := fun hc => hj (List.mem_cons_of_mem x hc)
      obtain ⟨ha1, ha2⟩ := hfr1 j hjxs
      obtain ⟨hb1, hb2⟩ := hfrm j (by rw [hxt]; exact hjx)
      exact ⟨by rw [ha1, hb1], by rw [ha2, hb2]⟩
    · intro v hv n hn hne
      rcases List.mem_cons.mp hv with hveq | hvxs
      · subst hveq
        obtain ⟨lval, hg, hle⟩ := hvism n hn hne
        rw [hxt] at hg
        obtain ⟨ha1, _⟩ := hfr1 v hx
        exact ⟨lval, by rw [ha1]; exact hg, hle⟩
      · have hn' : pyGet stm.num (v : Int) = some n := by rw [hnumm]; exact hn
        exact hper1 v hvxs n hn' hne

/-- C9: after the lowpoint phase of is_planar, run from a state whose
lowpt and lowpt2 lists are identical (as in a freshly built tester),
every visited vertex v in range has lowpt[v] at most num[v] and
lowpt[v] at most lowpt2[v]. -/
theorem c9_lowpt_bounds (st st1 : PlanarityTester)
    (hinit : st.lowpt = st.lowpt2)
    (hrun : compute_lowpoints st = some st1) :
    ∀ v : Int, 0 ≤ v → v < (st.V : Int) →
    ∀ n : Int, pyGet st.num v = some n → n ≠ -1 →
    ∃ l l2 : Int, pyGet st1.lowpt v = some l ∧ pyGet st1.lowpt2 v = some l2 ∧
      l ≤ n ∧ l ≤ l2 := by
  have hI : LowptInv st := by
    constructor
    · rw [hinit]
    · intro j l l2 h1 h2
      rw [hinit] at h1
      rw [h1] at h2
      exact le_of_eq (Option.some_injective _ h2)
  unfold compute_lowpoints at hrun
  obtain ⟨hI1, hnum, hV, hlen1, hlen2, hfr, hper⟩ :=
    lowpoints_fold_spec (List.range st.V) (List.nodup_range st.V) st st1 hrun hI
  intro v hv0 hvV n hn hne
  have hvmem : v.toNat ∈ List.range st.V := List.mem_range.mpr (by omega)
  have hcast : ((v.toNat : Nat) : Int) = v := Int.toNat_of_nonneg hv0
  obtain ⟨lval, hg, hle⟩ := hper v.toNat hvmem n (by rw [hcast]; exact hn) hne
  obtain ⟨hlt, _⟩ := List.get?_eq_some.mp hg
  have hlt2 : v.toNat < st1.lowpt2.length := by
    rw [hlen2, ← hinit, ← hlen1]
    exact hlt
  have hg2 : st1.lowpt2.get? v.toNat = some (st1.lowpt2.get ⟨v.toNat, hlt2⟩) :=
    List.get?_eq_get hlt2
  refine ⟨lval, st1.lowpt2.get ⟨v.toNat, hlt2⟩, ?_, ?_, hle,
    hI1.2 v.toNat lval _ hg hg2⟩
  · rw [pyGet_nonneg _ _ hv0]; exact hg
  · rw [pyGet_nonneg _ _ hv0]; exact hg2

/-- A one-vertex tester whose single vertex is already numbered. -/
def w9st : PlanarityTester := ⟨1, [], [1], [-1], [-1], [-1], 1, [], []⟩

/-- The state of w9st after the lowpoint phase. -/
def w9res : PlanarityTester := ⟨1, [], [1], [1], [1], [-1], 1, [], []⟩

/-- Witness for c9_lowpt_bounds at the concrete tester w9st. -/
theorem c9_witness :
    ∃ l l2 : Int, pyGet w9res.lowpt 0 = some l ∧ pyGet w9res.lowpt2 0 = some l2 ∧
      l ≤ 1 ∧ l ≤ l2 :=
  c9_lowpt_bounds w9st w9res rfl rfl 0 (by decide) (by decide) 1 rfl (by decide)

/-- The per-neighbor lowpt update the code performs, read off a fixed
state: a neighbor w lowers lowpt[v] to num[w] when num[w] < num[v] and
num[w] differs from the parent id parent[v], and to the current
lowpt[w] when num[w] > num[v]; failed reads leave the accumulator. -/
def lowpt_upd (st : PlanarityTester) (v : Int) (acc : Int) (w : Int) : Int :=
  (pyGet st.num w).elim acc (fun numw =>
    (pyGet st.num v).elim acc (fun numv =>
      if numw < numv then
        (pyGet st.parent v).elim acc (fun pv => if numw ≠ pv then min acc numw else acc)
      else if numv < numw then
        (pyGet st.lowpt w).elim acc (fun lw => min acc lw)
      else acc))

/-- The per-neighbor lowpt2 update the code performs: only a neighbor
with num[w] > num[v] contributes, with the current lowpt2[w]. -/
def lowpt2_upd (st : PlanarityTester) (v : Int) (acc : Int) (w : Int) : Int :=
  (pyGet st.num w).elim acc (fun numw =>
    (pyGet st.num v).elim acc (fun numv =>
      if numv < numw then
        (pyGet st.lowpt2 w).elim acc (fun l2w => min acc l2w)
      else acc))

/-- lowpt_upd only depends on num, parent, and lowpt away from v. -/
theorem lowpt_upd_congr (st st' : PlanarityTester) (v : Int) (hv : 0 ≤ v)
    (hnum : st'.num = st.num) (hpar : st'.parent = st.parent)
    (hfr : ∀ j : Nat, j ≠ v.toNat → st'.lowpt.get? j = st.lowpt.get? j)
    (acc : Int) (w : Int) (hw : 0 ≤ w) :
    lowpt_upd st' v acc w = lowpt_upd st v acc w := by
  unfold lowpt_upd
  rw [hnum, hpar]
  by_cases hwv : w = v
  · subst hwv
    cases pyGet st.num w with
    | none => rfl
    | some nv => simp
  · have hlw : pyGet st'.lowpt w = pyGet st.lowpt w := by
      rw [pyGet_nonneg _ _ hw, pyGet_nonneg _ _ hw]
      exact hfr w.toNat (fun hc => hwv (by omega))
    rw [hlw]

/-- lowpt2_upd only depends on num and lowpt2 away from v. -/
theorem lowpt2_upd_congr (st st' : PlanarityTester) (v : Int) (hv : 0 ≤ v)
    (hnum : st'.num = st.num)
    (hfr : ∀ j : Nat, j ≠ v.toNat → st'.lowpt2.get? j = st.lowpt2.get? j)
    (acc : Int) (w : Int) (hw : 0 ≤ w) :
    lowpt2_upd st' v acc w = lowpt2_upd st v acc w := by
  unfold lowpt2_upd
  rw [hnum]
  by_cases hwv : w = v
  · subst hwv
    cases pyGet st.num w with
    | none => rfl
    | some nv => simp
  · have hlw : pyGet st'.lowpt2 w = pyGet st.lowpt2 w := by
      rw [pyGet_nonneg _ _ hw, pyGet_nonneg _ _ hw]
      exact hfr w.toNat (fun hc => hwv (by omega))
    rw [hlw]

/-- C5 amended: the neighbor loop of the lowpoint phase computes, for
the vertex v being processed, exactly the left fold of the per-neighbor
updates lowpt_upd and lowpt2_upd over the adjacency list, with all
reads taken from the state at loop entry (in particular a tree child's
lowpt value is whatever is currently stored, possibly the initial -1,
and an edge to the parent counts as a back edge whenever num[w] differs
from the parent id). -/
theorem c5_amended_fold (v : Int) (hv : 0 ≤ v) :
    ∀ (ws : List Int) (st st1 : PlanarityTester),
    (∀ w ∈ ws, 0 ≤ w) →
    lowpoint_visit v st ws = some st1 →
    ∀ lv0 l2v0 : Int,
    st.lowpt.get? v.toNat = some lv0 →
    st.lowpt2.get? v.toNat = some l2v0 →
    st1.lowpt.get? v.toNat = some (ws.foldl (lowpt_upd st v) lv0) ∧
    st1.lowpt2.get? v.toNat = some (ws.foldl (lowpt2_upd st v) l2v0) := by
  intro ws
  induction ws with
  | nil =>
    intro st st1 _ h lv0 l2v0 hl0 hl20
    simp only [lowpoint_visit] at h
    have hst : st1 = st := (Option.some_injective _ h).symm
    subst hst
    exact ⟨hl0, hl20⟩
  | cons w ws ih =>
    intro st st1 hnn h lv0 l2v0 hl0 hl20
    have hw0 : 0 ≤ w := hnn w (List.mem_cons_self w ws)
    have hws : ∀ x ∈ ws, 0 ≤ x := fun x hx => hnn x (List.mem_cons_of_mem _ hx)
    simp only [lowpoint_visit] at h
    cases hnw : pyGet st.num w with
    | none =>
      rw [hnw] at h
      simp only [Option.bind_eq_bind, Option.none_bind] at h
      exact Option.noConfusion h
    | some numw =>
    rw [hnw] at h
    simp only [Option.bind_eq_bind, Option.some_bind] at h
    cases hnv : pyGet st.num v with
    | none =>
      rw [hnv] at h
      simp only [Option.bind_eq_bind, Option.none_bind] at h
      exact Option.noConfusion h
    | some numv =>
    rw [hnv] at h
    simp only [Option.bind_eq_bind, Option.some_bind] at h
    rw [List.foldl_cons, List.foldl_cons]
    by_cases hlt : numw < numv
    · rw [if_pos hlt] at h
      cases hpv : pyGet st.parent v with
      | none =>
        rw [hpv] at h
        simp only [Option.bind_eq_bind, Option.none_bind] at h
        exact Option.noConfusion h
      | some pv =>
      rw [hpv] at h
      simp only [Option.bind_eq_bind, Option.some_bind] at h
      have hhead2 : lowpt2_upd st v l2v0 w = l2v0 := by
        unfold lowpt2_upd
        rw [hnw, hnv]
        simp only [Option.elim, if_neg (by omega : ¬ numv < numw)]
      rw [hhead2]
      by_cases hne : numw ≠ pv
      · rw [if_pos hne] at h
        cases hlv : pyGet st.lowpt v with
        | none =>
          rw [hlv] at h
          simp only [Option.bind_eq_bind, Option.none_bind] at h
          exact Option.noConfusion h
        | some lv =>
        rw [hlv] at h
        simp only [Option.bind_eq_bind, Option.some_bind] at h
        cases hset : pySet st.lowpt v (min lv numw) with
        | none =>
          rw [hset] at h
          simp only [Option.bind_eq_bind, Option.none_bind] at h
          exact Option.noConfusion h
        | some lp =>
        rw [hset] at h
        simp only [Option.bind_eq_bind, Option.some_bind] at h
        obtain ⟨hvlt, hlp⟩ := pySet_nonneg_some hv hset
        have hlveq : lv = lv0 := by
          rw [pyGet_nonneg _ _ hv] at hlv
          exact Option.some_injective _ (hlv.symm.trans hl0)
        have hhead : lowpt_upd st v lv0 w = min lv0 numw := by
          unfold lowpt_upd
          rw [hnw, hnv, hpv]
          simp only [Option.elim, if_pos hlt, if_pos hne]
        rw [hhead]
        obtain ⟨ha, hb⟩ := ih ({ st with lowpt := lp }) st1 hws h (min lv0 numw) l2v0
          (by show lp.get? v.toNat = _
              rw [hlp, hlveq]
              exact List.get?_set_eq_of_lt _ hvlt)
          hl20
        constructor
        · rw [ha]
          congr 1
          refine List.foldl_ext _ _ _ ?_
          intro a b hb2
          exact lowpt_upd_congr st ({ st with lowpt := lp }) v hv rfl rfl
            (fun j hj => by
              show lp.get? j = st.lowpt.get? j
              rw [hlp]
              exact List.get?_set_ne _ _ (fun hc => hj hc.symm)) a b (hws b hb2)
        · exact hb
      · rw [if_neg hne] at h
        have hhead : lowpt_upd st v lv0 w = lv0 := by
          unfold lowpt_upd
          rw [hnw, hnv, hpv]
          simp only [Option.elim, if_pos hlt, if_neg hne]
        rw [hhead]
        exact ih st st1 hws h lv0 l2v0 hl0 hl20
    · rw [if_neg hlt] at h
      by_cases hgt : numv < numw
      · rw [if_pos hgt] at h
        cases hlv : pyGet st.lowpt v with
        | none =>
          rw [hlv] at h
          simp only [Option.bind_eq_bind, Option.none_bind] at h
          exact Option.noConfusion h
        | some lv =>
        rw [hlv] at h
        simp only [Option.bind_eq_bind, Option.some_bind] at h
        cases hlw : pyGet st.lowpt w with
        | none =>
          rw [hlw] at h
          simp only [Option.bind_eq_bind, Option.none_bind] at h
          exact Option.noConfusion h
        | some lw =>
        rw [hlw] at h
        simp only [Option.bind_eq_bind, Option.some_bind] at h
        cases hset : pySet st.lowpt v (min lv lw) with
        | none =>
          rw [hset] at h
          simp only [Option.bind_eq_bind, Option.none_bind] at h
          exact Option.noConfusion h
        | some lp =>
        rw [hset] at h
        simp only [Option.bind_eq_bind, Option.some_bind] at h
        cases hl2v : pyGet st.lowpt2 v with
        | none =>
          rw [hl2v] at h
          simp only [Option.bind_eq_bind, Option.none_bind] at h
          exact Option.noConfusion h
        | some l2v =>
        rw [hl2v] at h
        simp only [Option.bind_eq_bind, Option.some_bind] at h
        cases hl2w : pyGet st.lowpt2 w with
        | none =>
          rw [hl2w] at h
          simp only [Option.bind_eq_bind, Option.none_bind] at h
          exact Option.noConfusion h
        | some l2w =>
        rw [hl2w] at h
        simp only [Option.bind_eq_bind, Option.some_bind] at h
        cases hset2 : pySet st.lowpt2 v (min l2v l2w) with
        | none =>
          rw [hset2] at h
          simp only [Option.bind_eq_bind, Option.none_bind] at h
          exact Option.noConfusion h
        | some lp2 =>
        rw [hset2] at h
        simp only [Option.bind_eq_bind, Option.some_bind] at h
        obtain ⟨hvlt, hlp⟩ := pySet_nonneg_some hv hset
        obtain ⟨hvlt2, hlp2⟩ := pySet_nonneg_some hv hset2
        have hlveq : lv = lv0 := by
          rw [pyGet_nonneg _ _ hv] at hlv
          exact Option.some_injective _ (hlv.symm.trans hl0)
        have hl2veq : l2v = l2v0 := by
          rw [pyGet_nonneg _ _ hv] at hl2v
          exact Option.some_injective _ (hl2v.symm.trans hl20)
        have hhead : lowpt_upd st v lv0 w = min lv0 lw := by
          unfold lowpt_upd
          rw [hnw, hnv, hlw]
          simp only [Option.elim, if_neg hlt, if_pos hgt]
        have hhead2 : lowpt2_upd st v l2v0 w = min l2v0 l2w := by
          unfold lowpt2_upd
          rw [hnw, hnv, hl2w]
          simp only [Option.elim, if_pos hgt]
        rw [hhead, hhead2]
        obtain ⟨ha, hb⟩ := ih ({ st with lowpt := lp, lowpt2 := lp2 }) st1 hws h
          (min lv0 lw) (min l2v0 l2w)
          (by show lp.get? v.toNat = _
              rw [hlp, hlveq]
              exact List.get?_set_eq_of_lt _ hvlt)
          (by show lp2.get? v.toNat = _
              rw [hlp2, hl2veq]
              exact List.get?_set_eq_of_lt _ hvlt2)
        constructor
        · rw [ha]
          congr 1
          refine List.foldl_ext _ _ _ ?_
          intro a b hb2
          exact lowpt_upd_congr st ({ st with lowpt := lp, lowpt2 := lp2 }) v hv rfl rfl
            (fun j hj => by
              show lp.get? j = st.lowpt.get? j
              rw [hlp]
              exact List.get?_set_ne _ _ (fun hc => hj hc.symm)) a b (hws b hb2)
        · rw [hb]
          congr 1
          refine List.foldl_ext _ _ _ ?_
          intro a b hb2
          exact lowpt2_upd_congr st ({ st with lowpt := lp, lowpt2 := lp2 }) v hv rfl
            (fun j hj => by
              show lp2.get? j = st.lowpt2.get? j
              rw [hlp2]
              exact List.get?_set_ne _ _ (fun hc => hj hc.symm)) a b (hws b hb2)
      · rw [if_neg hgt] at h
        have hhead : lowpt_upd st v lv0 w = lv0 := by
          unfold lowpt_upd
          rw [hnw, hnv]
          simp only [Option.elim, if_neg hlt, if_neg hgt]
        have hhead2 : lowpt2_upd st v l2v0 w = l2v0 := by
          unfold lowpt2_upd
          rw [hnw, hnv]
          simp only [Option.elim, if_neg hgt]
        rw [hhead, hhead2]
        exact ih st st1 hws h lv0 l2v0 hl0 hl20

/-- A two-vertex state just before its vertex 0 enters the neighbor
loop of the lowpoint phase (lowpt[0] and lowpt2[0] already set to 1). -/
def w5st : PlanarityTester :=
  ⟨2, [(0, [1]), (1, [0])], [1, 2], [1, -1], [1, -1], [-1, 0], 2, [⟨0, 1, 1⟩], []⟩

/-- w5st after the neighbor loop for vertex 0: the unprocessed child's
initial lowpt (-1) has been folded in. -/
def w5res : PlanarityTester :=
  ⟨2, [(0, [1]), (1, [0])], [1, 2], [-1, -1], [-1, -1], [-1, 0], 2, [⟨0, 1, 1⟩], []⟩

/-- Witness for c5_amended_fold at the concrete state w5st. -/
theorem c5_amended_witness :
    w5res.lowpt.get? 0 = some ([(1 : Int)].foldl (lowpt_upd w5st 0) 1) ∧
    w5res.lowpt2.get? 0 = some ([(1 : Int)].foldl (lowpt2_upd w5st 0) 1) :=
  c5_amended_fold 0 (by decide) [1] w5st w5res (by decide) rfl 1 1 rfl rfl

/-- key_edges decorates without reordering: stripping the keys gives
back the edge list, and each stored key is the edge's computed key. -/
theorem key_edges_spec (st : PlanarityTester) :
    ∀ (es : List Edge) (keyed : List ((Int × Int) × Edge)),
    key_edges st es = some keyed →
    keyed.map Prod.snd = es ∧ ∀ p ∈ keyed, edge_key st p.2 = some p.1 := by
  intro es
  induction es with
  | nil =>
    intro keyed h
    simp only [key_edges] at h
    have hk : keyed = [] := (Option.some_injective _ h).symm
    subst hk
    exact ⟨rfl, fun p hp => absurd hp (List.not_mem_nil p)⟩
  | cons e es ih =>
    intro keyed h
    simp only [key_edges] at h
    cases hk : edge_key st e with
    | none =>
      rw [hk] at h
      simp only [Option.bind_eq_bind, Option.none_bind] at h
      exact Option.noConfusion h
    | some k =>
    rw [hk] at h
    simp only [Option.bind_eq_bind, Option.some_bind] at h
    cases hr : key_edges st es with
    | none =>
      rw [hr] at h
      simp only [Option.bind_eq_bind, Option.none_bind] at h
      exact Option.noConfusion h
    | some rest =>
    rw [hr] at h
    simp only [Option.bind_eq_bind, Option.some_bind] at h
    have hkeyed : keyed = (k, e) :: rest := (Option.some_injective _ h).symm
    subst hkeyed
    obtain ⟨h1, h2⟩ := ih rest hr
    refine ⟨by rw [List.map_cons, h1], ?_⟩
    intro p hp
    rcases List.mem_cons.mp hp with hpe | hpr
    · subst hpe; exact hk
    · exact h2 p hpr

/-- Filtering on an exact key commutes with an ordered insert: skipped
elements have strictly smaller keys, so they never share the key. -/
theorem orderedInsert_filter_key (k : Int × Int) :
    ∀ (a : (Int × Int) × Edge) (l : List ((Int × Int) × Edge)),
    (List.orderedInsert keyLe a l).filter (fun p => decide (p.1 = k)) =
      if a.1 = k then a :: l.filter (fun p => decide (p.1 = k))
      else l.filter (fun p => decide (p.1 = k)) := by
  intro a l
  induction l with
  | nil =>
    by_cases h : a.1 = k <;> simp [List.orderedInsert, List.filter, h]
  | cons b bs ih =>
    rw [List.orderedInsert]
    by_cases hr : keyLe a b
    · rw [if_pos hr]
      by_cases h : a.1 = k <;> simp [List.filter, h]
    · rw [if_neg hr]
      by_cases hak : a.1 = k
      · have hbk : ¬ (b.1 = k) := by
          intro hbk
          apply hr
          have hab : a.1 = b.1 := hak.trans hbk.symm
          unfold keyLe
          rw [hab]
          exact Or.inr ⟨rfl, le_refl _⟩
        rw [if_pos hak, List.filter_cons_of_neg (by simp [hbk]),
          List.filter_cons_of_neg (by simp [hbk]), ih, if_pos hak]
      · rw [if_neg hak]
        by_cases hb : b.1 = k
        · rw [List.filter_cons_of_pos (by simp [hb]),
            List.filter_cons_of_pos (by simp [hb]), ih, if_neg hak]
        · rw [List.filter_cons_of_neg (by simp [hb]),
            List.filter_cons_of_neg (by simp [hb]), ih, if_neg hak]

/-- Insertion sort is stable: the sublist carrying one fixed key is
unchanged. -/
theorem insertionSort_filter_key (k : Int × Int) :
    ∀ (l : List ((Int × Int) × Edge)),
    (List.insertionSort keyLe l).filter (fun p => decide (p.1 = k)) =
      l.filter (fun p => decide (p.1 = k)) := by
  intro l
  induction l with
  | nil => rfl
  | cons a l ih =>
    rw [List.insertionSort, orderedInsert_filter_key k]
    by_cases h : a.1 = k
    · rw [if_pos h, ih, List.filter_cons_of_pos (by simp [h])]
    · rw [if_neg h, ih, List.filter_cons_of_neg (by simp [h])]

/-- Filtering commutes with projecting the edge out of a keyed pair. -/
theorem filter_map_snd (p : Edge → Bool) :
    ∀ (l : List ((Int × Int) × Edge)),
    (l.map Prod.snd).filter p = (l.filter (fun q => p q.2)).map Prod.snd := by
  intro l
  induction l with
  | nil => rfl
  | cons a l ih =>
    simp only [List.map_cons, List.filter]
    cases hp : p a.2 <;> simp [hp, ih]

/-- C6 amended: _sort_edges produces a permutation of the classified
edges that is sorted by the code's key - a tree edge keyed by
(num of its child endpoint e.v2, 0), a back edge keyed by
(num of its own lower endpoint e.v1, the descendant, 1), keys compared
lexicographically - and edges with equal keys keep discovery order
(the filter on any fixed key is unchanged). -/
theorem c6_amended_sort (st st1 : PlanarityTester) (h : sort_edges st = some st1) :
    st1.sorted_edges.Perm st.edges ∧
    List.Pairwise (fun e1 e2 => ∀ k1 k2 : Int × Int,
      edge_key st e1 = some k1 → edge_key st e2 = some k2 →
      k1.1 < k2.1 ∨ (k1.1 = k2.1 ∧ k1.2 ≤ k2.2)) st1.sorted_edges ∧
    (∀ k : Int × Int,
      st1.sorted_edges.filter (fun e => decide (edge_key st e = some k)) =
      st.edges.filter (fun e => decide (edge_key st e = some k))) := by
  simp only [sort_edges] at h
  cases hk : key_edges st st.edges with
  | none =>
    rw [hk] at h
    simp only [Option.bind_eq_bind, Option.none_bind] at h
    exact Option.noConfusion h
  | some keyed =>
  rw [hk] at h
  simp only [Option.bind_eq_bind, Option.some_bind] at h
  have hst1 : st1 = { st with
      sorted_edges := (List.insertionSort keyLe keyed).map Prod.snd } :=
    (Option.some_injective _ h).symm
  subst hst1
  obtain ⟨hmap, hkeys⟩ := key_edges_spec st st.edges keyed hk
  have hperm : (List.insertionSort keyLe keyed).Perm keyed :=
    List.perm_insertionSort keyLe keyed
  refine ⟨?_, ?_, ?_⟩
  · show ((List.insertionSort keyLe keyed).map Prod.snd).Perm st.edges
    rw [← hmap]
    exact hperm.map Prod.snd
  · show List.Pairwise _ ((List.insertionSort keyLe keyed).map Prod.snd)
    rw [List.pairwise_map]
    have hsorted : List.Pairwise keyLe (List.insertionSort keyLe keyed) :=
      List.sorted_insertionSort keyLe keyed
    refine hsorted.imp_of_mem ?_
    intro p q hp hq hle
    intro k1 k2 hk1 hk2
    have hp' : edge_key st p.2 = some p.1 := hkeys p (hperm.mem_iff.mp hp)
    have hq' : edge_key st q.2 = some q.1 := hkeys q (hperm.mem_iff.mp hq)
    have e1 : k1 = p.1 := Option.some_injective _ (hk1.symm.trans hp')
    have e2 : k2 = q.1 := Option.some_injective _ (hk2.symm.trans hq')
    rw [e1, e2]
    exact hle
  · intro k
    show ((List.insertionSort keyLe keyed).map Prod.snd).filter _ = _
    rw [filter_map_snd]
    have hfc1 : (List.insertionSort keyLe keyed).filter
        (fun q => decide (edge_key st q.2 = some k)) =
        (List.insertionSort keyLe keyed).filter (fun q => decide (q.1 = k)) := by
      apply List.filter_congr
      intro q hq
      have hq' : edge_key st q.2 = some q.1 := hkeys q (hperm.mem_iff.mp hq)
      rw [hq']
      simp
    have hfc2 : keyed.filter (fun q => decide (edge_key st q.2 = some k)) =
        keyed.filter (fun q => decide (q.1 = k)) := by
      apply List.filter_congr
      intro q hq
      have hq' : edge_key st q.2 = some q.1 := hkeys q hq
      rw [hq']
      simp
    rw [hfc1, insertionSort_filter_key k keyed, ← hfc2,
      ← filter_map_snd (fun e => decide (edge_key st e = some k)) keyed, hmap]

/-- A three-vertex numbered state holding the classified edges of the
triangle 0-1-2, before sorting. -/
def w6st : PlanarityTester :=
  ⟨3, [], [1, 2, 3], [-1, -1, -1], [-1, -1, -1], [-1, 0, 1], 3,
    [⟨0, 1, 1⟩, ⟨1, 2, 1⟩, ⟨2, 0, -1⟩], []⟩

/-- Witness for c6_amended_sort at the concrete state w6st. -/
theorem c6_amended_witness :
    ∃ st1, sort_edges w6st = some st1 ∧ st1.sorted_edges.Perm w6st.edges := by
  refine ⟨_, rfl, ?_⟩
  exact (c6_amended_sort w6st _ rfl).1

/-- Unfolding: one pop iteration when the while condition holds. -/
theorem pop_merge_go_succ_cons (st : PlanarityTester) (h fuel : Nat)
    (bucket : List Edge) (rest : List (List Edge)) (ch : Int)
    (hgt : ¬ ((bucket :: rest).length ≤ h)) :
    pop_merge_go st h (fuel + 1) (bucket :: rest) ch = (do
      let r ← merge_edges st bucket rest.head?
      cond r.1 (pop_merge_go st h fuel (replace_top rest r.2) (ch - 1))
        (some none)) := by
  rw [pop_merge_go_succ, if_neg hgt]

/-- Unfolding: the loop stops when the stack is short enough. -/
theorem pop_merge_go_succ_le (st : PlanarityTester) (h fuel : Nat)
    (stack : List (List Edge)) (ch : Int) (hle : stack.length ≤ h) :
    pop_merge_go st h (fuel + 1) stack ch = some (some (stack, ch)) := by
  rw [pop_merge_go_succ, if_pos hle]

/-- The inner loop of _edges_cross checking e1 against every edge of
the target: under defined crossing tests it returns the existence of a
crossing partner. -/
theorem cross_any_spec (st : PlanarityTester) (e1 : Edge) :
    ∀ (l : List Edge),
    (∀ e2 ∈ l, ∃ b, edges_cross st e1 e2 = some b) →
    ∃ b, cross_any st e1 l = some b ∧
      (b = true ↔ ∃ e2 ∈ l, edges_cross st e1 e2 = some true) := by
  intro l
  induction l with
  | nil =>
    intro _
    exact ⟨false, rfl, by simp⟩
  | cons e2 l ih =>
    intro hall
    obtain ⟨b2, hb2⟩ := hall e2 (List.mem_cons_self e2 l)
    obtain ⟨b, hb, hiff⟩ := ih (fun x hx => hall x (List.mem_cons_of_mem _ hx))
    cases b2 with
    | true =>
      refine ⟨true, ?_, ?_⟩
      · simp only [cross_any, hb2, Option.bind_eq_bind, Option.some_bind, cond]
      · simp only [true_iff]
        exact ⟨e2, List.mem_cons_self e2 l, hb2⟩
    | false =>
      refine ⟨b, ?_, ?_⟩
      · simp only [cross_any, hb2, Option.bind_eq_bind, Option.some_bind, cond]
        exact hb
      · rw [hiff]
        constructor
        · rintro ⟨x, hx, hc⟩
          exact ⟨x, List.mem_cons_of_mem _ hx, hc⟩
        · rintro ⟨x, hx, hc⟩
          rcases List.mem_cons.mp hx with hxe | hxl
          · subst hxe
            rw [hb2] at hc
            exact absurd (Option.some_injective _ hc) (by simp)
          · exact ⟨x, hxl, hc⟩

/-- The nested loops of _merge_edges: under defined crossing tests the
result states whether some bucket edge crosses some target edge. -/
theorem bucket_cross_spec (st : PlanarityTester) :
    ∀ (bucket tgt : List Edge),
    (∀ e1 ∈ bucket, ∀ e2 ∈ tgt, ∃ b, edges_cross st e1 e2 = some b) →
    ∃ b, bucket_cross st bucket tgt = some b ∧
      (b = true ↔ ∃ e1 ∈ bucket, ∃ e2 ∈ tgt, edges_cross st e1 e2 = some true) := by
  intro bucket
  induction bucket with
  | nil =>
    intro tgt _
    exact ⟨false, rfl, by simp⟩
  | cons e1 b ih =>
    intro tgt hall
    obtain ⟨c, hc, hciff⟩ := cross_any_spec st e1 tgt (hall e1 (List.mem_cons_self e1 b))
    obtain ⟨c2, hc2, hc2iff⟩ := ih tgt (fun x hx => hall x (List.mem_cons_of_mem _ hx))
    cases c with
    | true =>
      refine ⟨true, ?_, ?_⟩
      · simp only [bucket_cross, hc, Option.bind_eq_bind, Option.some_bind, cond]
      · simp only [true_iff]
        obtain ⟨e2, he2, hcr⟩ := hciff.mp rfl
        exact ⟨e1, List.mem_cons_self e1 b, e2, he2, hcr⟩
    | false =>
      refine ⟨c2, ?_, ?_⟩
      · simp only [bucket_cross, hc, Option.bind_eq_bind, Option.some_bind, cond]
        exact hc2
      · rw [hc2iff]
        constructor
        · rintro ⟨x, hx, e2, he2, hcr⟩
          exact ⟨x, List.mem_cons_of_mem _ hx, e2, he2, hcr⟩
        · rintro ⟨x, hx, e2, he2, hcr⟩
          rcases List.mem_cons.mp hx with hxe | hxl
          · subst hxe
            exact Bool.noConfusion (hciff.mpr ⟨e2, he2, hcr⟩)
          · exact ⟨x, hxl, e2, he2, hcr⟩

/-- A merge into a present target always reports the target list back. -/
theorem merge_edges_some_target (st : PlanarityTester) (bucket tg : List Edge)
    (res : Bool × Option (List Edge)) (h : merge_edges st bucket (some tg) = some res) :
    ∃ t, res.2 = some t := by
  simp only [merge_edges] at h
  by_cases he : tg.isEmpty
  · rw [if_pos he] at h
    have : res = (true, some tg) := (Option.some_injective _ h).symm
    exact ⟨tg, by rw [this]⟩
  · rw [if_neg he] at h
    cases hb : bucket_cross st bucket tg with
    | none =>
      rw [hb] at h
      simp only [Option.bind_eq_bind, Option.none_bind] at h
      exact Option.noConfusion h
    | some c =>
    rw [hb] at h
    simp only [Option.bind_eq_bind, Option.some_bind] at h
    cases c with
    | true =>
      have : res = (false, some tg) := (Option.some_injective _ h).symm
      exact ⟨tg, by rw [this]⟩
    | false =>
      have : res = (true, some (tg ++ bucket)) := (Option.some_injective _ h).symm
      exact ⟨tg ++ bucket, by rw [this]⟩

/-- The parent-chain walk never returns less than its starting depth. -/
theorem nesting_depth_go_ge (st : PlanarityTester) (numw : Int) :
    ∀ (fuel : Nat) (v : Int) (dep d : Nat),
    nesting_depth_go st numw fuel v dep = some d → dep ≤ d := by
  intro fuel
  induction fuel with
  | zero =>
    intro v dep d h
    exact Option.noConfusion h
  | succ fuel ih =>
    intro v dep d h
    rw [nesting_depth_go_succ] at h
    cases hnv : pyGet st.num v with
    | none =>
      rw [hnv] at h
      simp only [Option.bind_eq_bind, Option.none_bind] at h
      exact Option.noConfusion h
    | some numv =>
    rw [hnv] at h
    simp only [Option.bind_eq_bind, Option.some_bind] at h
    by_cases hlt : numw < numv
    · rw [if_pos hlt] at h
      cases hpv : pyGet st.parent v with
      | none =>
        rw [hpv] at h
        simp only [Option.bind_eq_bind, Option.none_bind] at h
        exact Option.noConfusion h
      | some pv =>
      rw [hpv] at h
      simp only [Option.bind_eq_bind, Option.some_bind] at h
      exact le_trans (Nat.le_succ dep) (ih pv (dep + 1) d h)
    · rw [if_neg hlt] at h
      exact le_of_eq (Option.some_injective _ h)

/-- A genuinely classified back edge (its lower endpoint numbered above
its upper endpoint) has nesting depth at least 1. -/
theorem compute_nesting_depth_pos (st : PlanarityTester) (e : Edge) (d : Nat)
    (h : compute_nesting_depth st e = some d)
    (hback : ∃ nv nw : Int, pyGet st.num e.v1 = some nv ∧
      pyGet st.num e.v2 = some nw ∧ nw < nv) : 1 ≤ d := by
  obtain ⟨nv, nw, hnv, hnw, hlt⟩ := hback
  simp only [compute_nesting_depth, hnw, Option.bind_eq_bind, Option.some_bind] at h
  rw [nesting_depth_go_succ, hnv] at h
  simp only [Option.bind_eq_bind, Option.some_bind, if_pos hlt] at h
  cases hpv : pyGet st.parent e.v1 with
  | none =>
    rw [hpv] at h
    simp only [Option.bind_eq_bind, Option.none_bind] at h
    exact Option.noConfusion h
  | some pv =>
  rw [hpv] at h
  simp only [Option.bind_eq_bind, Option.some_bind] at h
  exact nesting_depth_go_ge st nw st.num.length pv 1 d h

/-- The pop/merge loop, run with enough fuel from a stack whose length
equals the current height, pops exactly down to height d on success:
the result has d buckets, height d, and all buckets below the new top
are the untouched deep part of the input stack. -/
theorem pop_merge_go_success (st : PlanarityTester) (d : Nat) :
    ∀ (fuel : Nat) (stack : List (List Edge)) (ch : Int)
      (stack1 : List (List Edge)) (ch1 : Int),
    stack.length ≤ fuel →
    (stack.length : Int) = ch →
    1 ≤ d → d ≤ stack.length →
    pop_merge_go st d fuel stack ch = some (some (stack1, ch1)) →
    stack1.length = d ∧ ch1 = (d : Int) ∧
    ∃ top, stack1 = top :: stack.drop (stack.length - d + 1) := by
  intro fuel
  induction fuel with
  | zero =>
    intro stack ch stack1 ch1 hfuel hch hd1 hdlen h
    omega
  | succ fuel ih =>
    intro stack ch stack1 ch1 hfuel hch hd1 hdlen h
    by_cases hle : stack.length ≤ d
    · rw [pop_merge_go_succ_le st d fuel stack ch hle] at h
      have hp : (stack, ch) = (stack1, ch1) := Option.some_injective _
        (Option.some_injective _ h)
      obtain ⟨hs, hc⟩ := Prod.mk.injEq _ _ _ _ ▸ hp
      have hlen : stack.length = d := le_antisymm hle hdlen
      cases stack with
      | nil => simp only [List.length_nil] at hlen; omega
      | cons top tail =>
        refine ⟨by rw [← hs, hlen], by omega, top, ?_⟩
        rw [← hs]
        have hidx : (top :: tail).length - d + 1 = 1 := by
          rw [hlen]; omega
        rw [hidx]
        rfl
    · cases stack with
      | nil => simp at hle
      | cons bucket rest =>
        rw [pop_merge_go_succ_cons st d fuel bucket rest ch hle] at h
        cases hm : merge_edges st bucket rest.head? with
        | none =>
          rw [hm] at h
          simp only [Option.bind_eq_bind, Option.none_bind] at h
          exact Option.noConfusion h
        | some r =>
        rw [hm] at h
        simp only [Option.bind_eq_bind, Option.some_bind] at h
        cases hr1 : r.1 with
        | false =>
          rw [hr1] at h
          simp only [cond] at h
          exact Option.noConfusion (Option.some_injective _ h)
        | true =>
        rw [hr1] at h
        simp only [cond] at h
        cases rest with
        | nil =>
          simp only [List.length_cons, List.length_nil] at hle hdlen
          omega
        | cons r0 rs =>
          have hhead : (r0 :: rs).head? = some r0 := rfl
          rw [hhead] at hm
          obtain ⟨t, ht⟩ := merge_edges_some_target st bucket r0 r hm
          rw [ht] at h
          have hrt : replace_top (r0 :: rs) (some t) = t :: rs := rfl
          rw [hrt] at h
          have hnew : (t :: rs).length ≤ fuel := by
            simp only [List.length_cons] at hfuel ⊢
            omega
          have hnewch : (((t :: rs).length : Nat) : Int) = ch - 1 := by
            simp only [List.length_cons] at hch ⊢
            push_cast at hch ⊢
            omega
          have hnewd : d ≤ (t :: rs).length := by
            simp only [List.length_cons] at hle ⊢
            omega
          obtain ⟨h1, h2, top, h3⟩ := ih (t :: rs) (ch - 1) stack1 ch1 hnew hnewch hd1 hnewd h
          refine ⟨h1, h2, top, ?_⟩
          rw [h3]
          congr 1
          have hi1 : (t :: rs).length - d + 1 = (rs.length + 1 - d) + 1 := by
            simp only [List.length_cons]
          rw [hi1, List.drop_succ_cons]
          have hi2 : (bucket :: r0 :: rs).length - d + 1 = ((rs.length + 1 - d) + 1) + 1 := by
            simp only [List.length_cons] at hle ⊢
            omega
          rw [hi2, List.drop_succ_cons, List.drop_succ_cons]

/-- _merge_edges with a present target returns False exactly when some
bucket edge crosses some target edge (under defined crossing tests);
in particular an empty target never fails. -/
theorem merge_edges_fail_iff (st : PlanarityTester) (bucket tgt : List Edge)
    (hall : ∀ e1 ∈ bucket, ∀ e2 ∈ tgt, ∃ b, edges_cross st e1 e2 = some b) :
    (∃ t, merge_edges st bucket (some tgt) = some (false, t)) ↔
      ∃ e1 ∈ bucket, ∃ e2 ∈ tgt, edges_cross st e1 e2 = some true := by
  simp only [merge_edges]
  by_cases he : tgt.isEmpty
  · rw [if_pos he]
    have htgt : tgt = [] := List.isEmpty_iff.mp he
    subst htgt
    constructor
    · rintro ⟨t, ht⟩
      have := Option.some_injective _ ht
      exact absurd (congrArg Prod.fst this) (by simp)
    · rintro ⟨e1, _, e2, he2, _⟩
      exact absurd he2 (List.not_mem_nil e2)
  · rw [if_neg he]
    obtain ⟨b, hb, hiff⟩ := bucket_cross_spec st bucket tgt hall
    rw [hb]
    simp only [Option.bind_eq_bind, Option.some_bind]
    cases b with
    | true =>
      simp only [cond]
      rw [← hiff]
      simp
    | false =>
      simp only [cond]
      rw [← hiff]
      constructor
      · rintro ⟨t, ht⟩
        have := Option.some_injective _ ht
        exact absurd (congrArg Prod.fst this) (by simp)
      · intro hfalse
        exact Bool.noConfusion hfalse

/-- C3: processing one back edge in _test_planarity.  (1) If the
nesting depth d exceeds the current height the verdict is False at
once, whatever edges remain.  (2) A merge into a present target reports
False exactly when a popped-bucket edge crosses a target edge.  (3) If
a merge during the pops fails, the verdict is False.  (4) Otherwise,
starting from a stack whose length equals the current height, the stack
is popped down to exactly d buckets, the buckets below the new top are
the untouched deep part of the input stack, the back edge is appended
to the new top bucket, and processing continues on the remaining edges
with current height d. -/
theorem c3_back_edge_step :
    (∀ (st : PlanarityTester) (e : Edge) (rest : List Edge)
       (stack : List (List Edge)) (ch : Int) (d : Nat),
      e.sign ≠ 1 → compute_nesting_depth st e = some d → (d : Int) > ch →
      test_planarity_loop st (e :: rest) stack ch = some false) ∧
    (∀ (st : PlanarityTester) (bucket tgt : List Edge),
      (∀ e1 ∈ bucket, ∀ e2 ∈ tgt, ∃ b, edges_cross st e1 e2 = some b) →
      ((∃ t, merge_edges st bucket (some tgt) = some (false, t)) ↔
        ∃ e1 ∈ bucket, ∃ e2 ∈ tgt, edges_cross st e1 e2 = some true)) ∧
    (∀ (st : PlanarityTester) (e : Edge) (rest : List Edge)
       (stack : List (List Edge)) (ch : Int) (d : Nat),
      e.sign ≠ 1 → compute_nesting_depth st e = some d → ¬ ((d : Int) > ch) →
      pop_merge st d stack ch = some none →
      test_planarity_loop st (e :: rest) stack ch = some false) ∧
    (∀ (st : PlanarityTester) (e : Edge) (rest : List Edge)
       (stack : List (List Edge)) (ch : Int) (d : Nat)
       (stack1 : List (List Edge)) (ch1 : Int),
      e.sign ≠ 1 →
      (∃ nv nw : Int, pyGet st.num e.v1 = some nv ∧
        pyGet st.num e.v2 = some nw ∧ nw < nv) →
      compute_nesting_depth st e = some d →
      (d : Int) ≤ ch → (stack.length : Int) = ch →
      pop_merge st d stack ch = some (some (stack1, ch1)) →
      stack1.length = d ∧ ch1 = (d : Int) ∧
      ∃ top, stack1 = top :: stack.drop (stack.length - d + 1) ∧
        test_planarity_loop st (e :: rest) stack ch =
          test_planarity_loop st rest
            ((top ++ [e]) :: stack.drop (stack.length - d + 1)) (d : Int)) := by
  refine ⟨?_, ?_, ?_, ?_⟩
  · intro st e rest stack ch d hsign hd hgt
    simp only [test_planarity_loop]
    rw [if_neg hsign, hd]
    simp only [Option.bind_eq_bind, Option.some_bind]
    rw [if_pos hgt]
  · intro st bucket tgt hall
    exact merge_edges_fail_iff st bucket tgt hall
  · intro st e rest stack ch d hsign hd hngt hpm
    simp only [test_planarity_loop]
    rw [if_neg hsign, hd]
    simp only [Option.bind_eq_bind, Option.some_bind]
    rw [if_neg hngt, hpm]
    simp only [Option.bind_eq_bind, Option.some_bind, Option.elim]
  · intro st e rest stack ch d stack1 ch1 hsign hback hd hdle hch hpm
    have hd1 : 1 ≤ d := compute_nesting_depth_pos st e d hd hback
    have hdlen : d ≤ stack.length := by omega
    have hpm' : pop_merge_go st d stack.length stack ch = some (some (stack1, ch1)) := hpm
    obtain ⟨h1, h2, top, h3⟩ := pop_merge_go_success st d stack.length stack ch
      stack1 ch1 (le_refl _) hch hd1 hdlen hpm'
    refine ⟨h1, h2, top, h3, ?_⟩
    simp only [test_planarity_loop]
    rw [if_neg hsign, hd]
    simp only [Option.bind_eq_bind, Option.some_bind]
    rw [if_neg (by omega : ¬ ((d : Int) > ch)), hpm]
    simp only [Option.bind_eq_bind, Option.some_bind, Option.elim]
    rw [h3, h2]
    simp only [append_to_top]

/-- Witness for c3_back_edge_step: on the numbered triangle state the
back edge (2,0) has nesting depth 2, which exceeds current height 0, so
the tester answers False immediately. -/
theorem c3_witness : test_planarity_loop w6st [⟨2, 0, -1⟩] [] 0 = some false :=
  c3_back_edge_step.1 w6st ⟨2, 0, -1⟩ [] [] 0 2 (by decide) (by rfl) (by decide)

/-- A lowpoint-phase step at a vertex whose num is still -1 does
nothing, so the fold over a list of such vertices is the identity. -/
theorem lowpoint_fold_unvisited :
    ∀ (l : List Nat) (s : PlanarityTester),
    (∀ v ∈ l, pyGet s.num (v : Int) = some (-1)) →
    l.foldlM (fun s (v : Nat) => lowpoint_step s (v : Int)) s = some s := by
  intro l
  induction l with
  | nil => intro s _; rfl
  | cons v vs ih =>
    intro s hall
    simp only [List.foldlM_cons]
    have hv : lowpoint_step s (v : Int) = some s := by
      simp only [lowpoint_step]
      rw [hall v (List.mem_cons_self v vs)]
      simp only [Option.bind_eq_bind, Option.some_bind]
      rw [if_neg (by decide : ¬ ((-1 : Int) ≠ -1))]
    rw [hv]
    simp only [Option.bind_eq_bind, Option.some_bind]
    exact ih s (fun w hw => hall w (List.mem_cons_of_mem v hw))

/-- Reading a replicated list below its length. -/
theorem get?_replicate_lt {α : Type} (a : α) :
    ∀ (n i : Nat), i < n → (List.replicate n a).get? i = some a := by
  intro n
  induction n with
  | zero => intro i hi; exact absurd hi (Nat.not_lt_zero i)
  | succ m ih =>
    intro i hi
    rw [List.replicate_succ]
    cases i with
    | zero => rfl
    | succ j => exact ih j (Nat.lt_of_succ_lt_succ hi)

/-- pyGet at index 0 of a nonempty list. -/
theorem pyGet_zero_cons {α : Type} (x : α) (xs : List α) :
    pyGet (x :: xs) 0 = some x := by
  rw [pyGet_nonneg _ _ (le_refl (0 : Int))]
  rfl

/-- pySet at index 0 of a nonempty list. -/
theorem pySet_zero_cons {α : Type} (x : α) (xs : List α) (a : α) :
    pySet (x :: xs) 0 a = some (a :: xs) := by
  rw [pySet_nonneg _ _ _ (le_refl (0 : Int))]
  have hlt : (0 : Int) < ((x :: xs).length : Int) := by
    simp only [List.length_cons]
    omega
  rw [if_pos hlt]
  rfl

/-- C8 (amended): for every vertex count V ≥ 1, is_planar on the
edgeless V-vertex graph returns True.  (The spec claims this for every
V ≥ 0; at V = 0 the call instead raises IndexError on num[0] —
c8_counterexample.) -/
theorem c8_amended_empty_planar (V : Nat) (hV : 1 ≤ V) :
    is_planar_bool (mkTester V) = some true := by
  obtain ⟨n, rfl⟩ : ∃ n, V = n + 1 := ⟨V - 1, by omega⟩
  have hset : pySet (List.replicate (n + 1) (-1 : Int)) 0 ((0 : Int) + 1) =
      some ((1 : Int) :: List.replicate n (-1)) := by
    rw [List.replicate_succ, pySet_zero_cons, zero_add]
  have hcn : compute_numbers ((mkTester (n + 1)).V + 1) (mkTester (n + 1)) 0 =
      some ((⟨n + 1, [], (1 : Int) :: List.replicate n (-1),
              List.replicate (n + 1) (-1), List.replicate (n + 1) (-1),
              List.replicate (n + 1) (-1), 1, [], []⟩ : PlanarityTester), true) := by
    rw [compute_numbers_succ]
    simp only [mkTester]
    rw [hset]
    simp only [Option.bind_eq_bind, Option.some_bind]
    rfl
  have hstep0 : lowpoint_step (⟨n + 1, [], (1 : Int) :: List.replicate n (-1),
      List.replicate (n + 1) (-1), List.replicate (n + 1) (-1),
      List.replicate (n + 1) (-1), 1, [], []⟩ : PlanarityTester) (0 : Int) =
      some (⟨n + 1, [], (1 : Int) :: List.replicate n (-1),
        (1 : Int) :: List.replicate n (-1), (1 : Int) :: List.replicate n (-1),
        List.replicate (n + 1) (-1), 1, [], []⟩ : PlanarityTester) := by
    simp only [lowpoint_step]
    rw [pyGet_zero_cons]
    simp only [Option.bind_eq_bind, Option.some_bind]
    rw [if_pos (by decide : (1 : Int) ≠ -1)]
    rw [List.replicate_succ, pySet_zero_cons]
    simp only [Option.bind_eq_bind, Option.some_bind]
    rfl
  have hfold : compute_lowpoints (⟨n + 1, [], (1 : Int) :: List.replicate n (-1),
      List.replicate (n + 1) (-1), List.replicate (n + 1) (-1),
      List.replicate (n + 1) (-1), 1, [], []⟩ : PlanarityTester) =
      some (⟨n + 1, [], (1 : Int) :: List.replicate n (-1),
        (1 : Int) :: List.replicate n (-1), (1 : Int) :: List.replicate n (-1),
        List.replicate (n + 1) (-1), 1, [], []⟩ : PlanarityTester) := by
    simp only [compute_lowpoints]
    rw [List.range_succ_eq_map]
    simp only [List.foldlM_cons, Nat.cast_zero]
    rw [hstep0]
    simp only [Option.bind_eq_bind, Option.some_bind]
    refine lowpoint_fold_unvisited _ _ ?_
    intro v hv
    obtain ⟨k, hk, rfl⟩ := List.mem_map.mp hv
    rw [pyGet_natCast]
    exact get?_replicate_lt (-1) n k (List.mem_range.mp hk)
  simp only [is_planar_bool, is_planar]
  rw [hcn]
  simp only [Option.bind_eq_bind, Option.some_bind, Bool.cond_true]
  rw [hfold]
  simp only [Option.bind_eq_bind, Option.some_bind]
  rfl

/-- Witness for c8_amended_empty_planar, at V = 3. -/
theorem c8_amended_witness : 1 ≤ 3 ∧ is_planar_bool (mkTester 3) = some true :=
  ⟨by decide, c8_amended_empty_planar 3 (by decide)⟩

/-- The neighbor loop of _compute_numbers never produces False on its
own: if the recursive call always reports True, so does the loop. -/
theorem visit_neighbors_true
    (recurse : PlanarityTester → Int → Option (PlanarityTester × Bool))
    (H : ∀ (s : PlanarityTester) (w : Int) (p : PlanarityTester × Bool),
      recurse s w = some p → p.2 = true)
    (v : Int) :
    ∀ (l : List Int) (st st' : PlanarityTester) (b : Bool),
    visit_neighbors recurse v st l = some (st', b) → b = true := by
  intro l
  induction l with
  | nil =>
    intro st st' b h
    simp only [visit_neighbors] at h
    exact (congrArg Prod.snd (Option.some_injective _ h)).symm
  | cons w ws ih =>
    intro st st' b h
    simp only [visit_neighbors] at h
    cases hnw : pyGet st.num w with
    | none =>
      rw [hnw] at h
      simp only [Option.bind_eq_bind, Option.none_bind] at h
      exact Option.noConfusion h
    | some numw =>
      rw [hnw] at h
      simp only [Option.bind_eq_bind, Option.some_bind] at h
      by_cases h1 : numw = -1
      · rw [if_pos h1] at h
        cases hpar : pySet st.parent w v with
        | none =>
          rw [hpar] at h
          simp only [Option.bind_eq_bind, Option.none_bind] at h
          exact Option.noConfusion h
        | some par =>
          rw [hpar] at h
          simp only [Option.bind_eq_bind, Option.some_bind] at h
          cases hrec : recurse { st with parent := par, edges := st.edges ++ [⟨v, w, 1⟩] } w with
          | none =>
            rw [hrec] at h
            simp only [Option.bind_eq_bind, Option.none_bind] at h
            exact Option.noConfusion h
          | some p =>
            rw [hrec] at h
            simp only [Option.bind_eq_bind, Option.some_bind] at h
            rw [H _ _ _ hrec] at h
            simp only [Bool.cond_true] at h
            exact ih _ _ _ h
      · rw [if_neg h1] at h
        cases hnv : pyGet st.num v with
        | none =>
          rw [hnv] at h
          simp only [Option.bind_eq_bind, Option.none_bind] at h
          exact Option.noConfusion h
        | some numv =>
          rw [hnv] at h
          simp only [Option.bind_eq_bind, Option.some_bind] at h
          by_cases h2 : numw < numv
          · rw [if_pos h2] at h
            cases hpv : pyGet st.parent v with
            | none =>
              rw [hpv] at h
              simp only [Option.bind_eq_bind, Option.none_bind] at h
              exact Option.noConfusion h
            | some pv =>
              rw [hpv] at h
              simp only [Option.bind_eq_bind, Option.some_bind] at h
              by_cases h3 : w ≠ pv
              · rw [if_pos h3] at h
                exact ih _ _ _ h
              · rw [if_neg h3] at h
                exact ih _ _ _ h
          · rw [if_neg h2] at h
            exact ih _ _ _ h

/-- Whenever _compute_numbers returns (for any fuel, state and start
vertex), the returned boolean is True. -/
theorem compute_numbers_true :
    ∀ (fuel : Nat) (st : PlanarityTester) (v : Int)
      (st' : PlanarityTester) (b : Bool),
    compute_numbers fuel st v = some (st', b) → b = true := by
  intro fuel
  induction fuel with
  | zero =>
    intro st v st' b h
    rw [compute_numbers_zero] at h
    exact Option.noConfusion h
  | succ f ih =>
    intro st v st' b h
    rw [compute_numbers_succ] at h
    cases hset : pySet st.num v (st.counter + 1) with
    | none =>
      rw [hset] at h
      simp only [Option.bind_eq_bind, Option.none_bind] at h
      exact Option.noConfusion h
    | some num1 =>
      rw [hset] at h
      simp only [Option.bind_eq_bind, Option.some_bind] at h
      exact visit_neighbors_true (compute_numbers f)
        (fun s w p hp => ih s w p.1 p.2 hp) v _ _ _ _ h

/-- C10: the DFS numbering routine returns True on every invocation
that returns at all, so the early non-planar return of is_planar on a
False from numbering is unreachable: whenever is_planar produces a
verdict, the numbering succeeded with True and the boolean verdict is
exactly the one computed by the interval stack test on the sorted
state. -/
theorem c10_numbering_always_true :
    (∀ (fuel : Nat) (st : PlanarityTester) (v : Int)
       (st' : PlanarityTester) (b : Bool),
      compute_numbers fuel st v = some (st', b) → b = true) ∧
    (∀ (st : PlanarityTester) (p : PlanarityTester × Bool),
      is_planar st = some p →
      ∃ st1 st2, compute_numbers (st.V + 1) st 0 = some (st1, true) ∧
        compute_lowpoints st1 = some st2 ∧
        sort_edges st2 = some p.1 ∧
        test_planarity p.1 = some p.2) := by
  refine ⟨compute_numbers_true, ?_⟩
  intro st p h
  obtain ⟨p1, p2⟩ := p
  simp only [is_planar] at h
  cases hcn : compute_numbers (st.V + 1) st 0 with
  | none =>
    rw [hcn] at h
    simp only [Option.bind_eq_bind, Option.none_bind] at h
    exact Option.noConfusion h
  | some q =>
    obtain ⟨q1, q2⟩ := q
    have hq2 : q2 = true := compute_numbers_true _ _ _ _ _ hcn
    subst hq2
    rw [hcn] at h
    simp only [Option.bind_eq_bind, Option.some_bind, Bool.cond_true] at h
    cases hlp : compute_lowpoints q1 with
    | none =>
      rw [hlp] at h
      simp only [Option.bind_eq_bind, Option.none_bind] at h
      exact Option.noConfusion h
    | some st2 =>
      rw [hlp] at h
      simp only [Option.bind_eq_bind, Option.some_bind] at h
      cases hse : sort_edges st2 with
      | none =>
        rw [hse] at h
        simp only [Option.bind_eq_bind, Option.none_bind] at h
        exact Option.noConfusion h
      | some st3 =>
        rw [hse] at h
        simp only [Option.bind_eq_bind, Option.some_bind] at h
        cases htp : test_planarity st3 with
        | none =>
          rw [htp] at h
          simp only [Option.bind_eq_bind, Option.none_bind] at h
          exact Option.noConfusion h
        | some bb =>
          rw [htp] at h
          simp only [Option.bind_eq_bind, Option.some_bind] at h
          have hp := Option.some_injective _ h
          have hst : st3 = p1 := congrArg Prod.fst hp
          have hb : bb = p2 := congrArg Prod.snd hp
          subst hst
          subst hb
          exact ⟨q1, st2, rfl, hlp, hse, htp⟩

/-- Witness for c10_numbering_always_true: the numbering of the
one-vertex graph returns True. -/
theorem c10_witness :
    compute_numbers 2 (mkTester 1) 0 =
      some ((⟨1, [], [1], [-1], [-1], [-1], 1, [], []⟩ : PlanarityTester), true) ∧
    true = true :=
  ⟨by rfl,
   c10_numbering_always_true.1 2 (mkTester 1) 0
     (⟨1, [], [1], [-1], [-1], [-1], 1, [], []⟩ : PlanarityTester) true (by rfl)⟩
